import Mathlib

set_option maxRecDepth 1000000

/-!
# Verification of the pdf2skill-lite document-to-skill-pack compiler

Shallow embedding of the pure core of `src/index.js` (text normalization,
semantic segmentation, chunk balancing, tokenization / keyword extraction,
step and condition extraction, routing score, dependency graph, and the
`run` pipeline assembly), together with proofs settling the frozen claims.

Text is modelled as `List Char` (one entry per UTF-16 BMP code unit, which
covers every character class the program manipulates).  JavaScript regular
expressions are modelled by equivalent explicit scanners; each definition
notes the source construct it embeds.
-/

namespace P2S

/-! ## Character classes -/

/-- The JS `\s` class (WhiteSpace + LineTerminator), used by `String.prototype.trim`,
`split(/\s+/)` and the `\s` escapes in the source regexes. -/
def isJsSpace (c : Char) : Bool :=
  c == ' ' || c == '\t' || c == '\n' || c == '\r' || c == '\u000B' || c == '\u000C' ||
  c == ' ' || c == '﻿' || c == ' ' ||
  (0x2000 ≤ c.toNat && c.toNat ≤ 0x200A) ||
  c == ' ' || c == ' ' || c == ' ' || c == ' ' || c == '　'

/-- The class `[  ]` of `normalizeText`'s space-collapsing replace. -/
def isSpaceNB (c : Char) : Bool := c == ' ' || c == ' '

/-- `\d` = `[0-9]`. -/
def isDigitCh (c : Char) : Bool := '0' ≤ c && c ≤ '9'

/-- The CJK range `[一-龥]` used throughout the source. -/
def isCJK (c : Char) : Bool := 0x4e00 ≤ c.toNat && c.toNat ≤ 0x9fa5

/-- `[a-z0-9]`, the Latin token class (applied to lower-cased text). -/
def isLatinTok (c : Char) : Bool := ('a' ≤ c && c ≤ 'z') || ('0' ≤ c && c ≤ '9')

/-- `[A-Za-z]`, used by `detectLanguage`. -/
def isLatinLetter (c : Char) : Bool := ('A' ≤ c && c ≤ 'Z') || ('a' ≤ c && c ≤ 'z')

/-- JS `\w` = `[A-Za-z0-9_]`, used for the `\b` word-boundary assertions. -/
def isWordChar (c : Char) : Bool :=
  ('A' ≤ c && c ≤ 'Z') || ('a' ≤ c && c ≤ 'z') || ('0' ≤ c && c ≤ '9') || c == '_'

/-- ASCII lower-casing, the extensionally relevant part of `toLowerCase()`
for the `[a-z0-9]` token class. -/
def jsToLower (c : Char) : Char := if 'A' ≤ c ∧ c ≤ 'Z' then Char.ofNat (c.toNat + 32) else c

/-! ## Generic scanners (structural recursion, so terms reduce in the kernel) -/

/-- Collapse every maximal run of characters satisfying `p` into the single
character `rep`; models `replace(/CLASS+/g, rep)`.  The Boolean argument
records whether the previous character was in the class. -/
def collapseRunsAux (p : Char → Bool) (rep : Char) : Bool → List Char → List Char
  | _, [] => []
  | inRun, c :: rest =>
      if p c then (if inRun then [] else [rep]) ++ collapseRunsAux p rep true rest
      else c :: collapseRunsAux p rep false rest

def collapseRuns (p : Char → Bool) (rep : Char) (l : List Char) : List Char :=
  collapseRunsAux p rep false l

/-- Collapse every run of 3 or more newlines into exactly two; models
`replace(/\n{3,}/g, "\n\n")`.  `k` counts the newlines of the current run
seen so far. -/
def collapseNLAux : Nat → List Char → List Char
  | _, [] => []
  | k, c :: rest =>
      if c = '\n' then (if k < 2 then ['\n'] else []) ++ collapseNLAux (k + 1) rest
      else c :: collapseNLAux 0 rest

def collapseNL (l : List Char) : List Char := collapseNLAux 0 l

/-- `String.prototype.trim`. -/
def jsTrim (l : List Char) : List Char :=
  (((l.dropWhile isJsSpace).reverse.dropWhile isJsSpace)).reverse

/-- `replace(/\r/g, "")`. -/
def removeCR (l : List Char) : List Char := l.filter (fun c => !(c == '\r'))

/-- `replace(/\t/g, " ")`. -/
def tabsToSpaces (l : List Char) : List Char := l.map (fun c => if c = '\t' then ' ' else c)

/-- `normalizeText` of `src/index.js`: strip `\r`, tabs to spaces, collapse
space/no-break-space runs, collapse 3+ newlines to 2, trim. -/
def normalizeText (l : List Char) : List Char :=
  jsTrim (collapseNL (collapseRuns isSpaceNB ' ' (tabsToSpaces (removeCR l))))

/-- `x.replace(/\s+/g, "").length`: the whitespace-stripped length used by
the block and chunk length filters. -/
def strippedLen (l : List Char) : Nat := (l.filter (fun c => !(isJsSpace c))).length

/-! ## splitSemanticBlocks -/

/-- Fuel-driven core of `split(/\n\n+/)`: pieces of the text separated by
maximal runs of 2 or more newlines. -/
def splitBlF : Nat → List Char → List (List Char)
  | 0, l => [l]
  | _ + 1, [] => [[]]
  | fuel + 1, c :: rest =>
      if c = '\n' ∧ rest.head? = some '\n' then
        [] :: splitBlF fuel (rest.dropWhile (fun x => x = '\n'))
      else
        match splitBlF fuel rest with
        | [] => [[c]]
        | piece :: pieces => (c :: piece) :: pieces

def splitBl (l : List Char) : List (List Char) := splitBlF (l.length + 1) l

/-- `splitSemanticBlocks`: split on blank lines, trim, drop empties, drop
blocks with fewer than 40 non-whitespace characters. -/
def splitSemanticBlocks (l : List Char) : List (List Char) :=
  (((splitBl l).map jsTrim).filter (fun x => !x.isEmpty)).filter
    (fun x => 40 ≤ strippedLen x)

/-! ## chunkBlocks -/

/-- `block.split(/\s+/).filter(Boolean).length`: the number of maximal runs
of non-whitespace characters. `inWord` records whether the previous
character was part of a word. -/
def countWordsAux : Bool → List Char → Nat
  | _, [] => 0
  | inWord, c :: rest =>
      if isJsSpace c then countWordsAux false rest
      else (if inWord then 0 else 1) + countWordsAux true rest

def countWords (l : List Char) : Nat := countWordsAux false l

/-- `array.join("\n\n")`. -/
def joinBlankLine (xs : List (List Char)) : List Char := List.intercalate ['\n', '\n'] xs

/-- The accumulator loop of `chunkBlocks` (lines 159–174 of `src/index.js`):
before appending a block, emit the accumulator when it is non-empty and
either adding the block would pass 280 words or it already holds 140. -/
def chunkLoop : List (List Char) → List (List Char) → Nat → List (List Char)
  | [], current, _ => if current.isEmpty then [] else [joinBlankLine current]
  | b :: bs, current, currentWords =>
      let words := countWords b
      if ¬current.isEmpty ∧ (280 < currentWords + words ∨ 140 ≤ currentWords) then
        joinBlankLine current :: chunkLoop bs [b] words
      else
        chunkLoop bs (current ++ [b]) (currentWords + words)

def rawChunks (blocks : List (List Char)) : List (List Char) := chunkLoop blocks [] 0

/-- Group consecutive chunks into batches of `ratio`, joining each batch
with a blank line (the reduction loop of `chunkBlocks`). -/
def groupJoinF : Nat → Nat → List (List Char) → List (List Char)
  | 0, _, l => if l.isEmpty then [] else [joinBlankLine l]
  | _, _, [] => []
  | fuel + 1, ratio, c :: cs =>
      joinBlankLine ((c :: cs).take ratio) :: groupJoinF fuel ratio ((c :: cs).drop ratio)

def groupJoin (ratio : Nat) (l : List (List Char)) : List (List Char) :=
  groupJoinF l.length ratio l

/-- `Math.ceil(rawCount / maxChunks)` for positive `maxChunks`. -/
def ceilRatio (rawCount maxChunks : Nat) : Nat := (rawCount + maxChunks - 1) / maxChunks

/-- `chunkBlocks` of `src/index.js`. -/
def chunkBlocks (blocks : List (List Char)) (maxChunks : Nat) : List (List Char) :=
  let chunks := rawChunks blocks
  if chunks.length ≤ maxChunks then chunks
  else (groupJoin (ceilRatio chunks.length maxChunks) chunks).take maxChunks

/-! ## Basic lemmas about the scanners -/

theorem countWordsAux_nil (b : Bool) : countWordsAux b [] = 0 := rfl

theorem chunkLoop_nil (current : List (List Char)) (w : Nat) :
    chunkLoop [] current w = if current.isEmpty then [] else [joinBlankLine current] := rfl

/-- Length of the grouped list: `⌈n / ratio⌉` groups for `0 < ratio`. -/
theorem groupJoinF_length (ratio : Nat) (hr : 0 < ratio) :
    ∀ fuel (l : List (List Char)), l.length ≤ fuel →
      (groupJoinF fuel ratio l).length = (l.length + ratio - 1) / ratio := by
  intro fuel
  induction fuel with
  | zero =>
      intro l hl
      have h0 : l = [] := List.length_eq_zero.mp (Nat.le_zero.mp hl)
      subst h0
      simp only [groupJoinF, List.isEmpty_nil, if_true, List.length_nil]
      exact (Nat.div_eq_of_lt (by omega)).symm
  | succ fuel ih =>
      intro l hl
      match l with
      | [] =>
          simp only [groupJoinF, List.length_nil]
          exact (Nat.div_eq_of_lt (by omega)).symm
      | c :: cs =>
          have hl2 : cs.length + 1 ≤ fuel + 1 := by simpa using hl
          have hlen : ((c :: cs).drop ratio).length ≤ fuel := by
            rw [List.length_drop]; simp only [List.length_cons]; omega
          have ihd := ih ((c :: cs).drop ratio) hlen
          simp only [groupJoinF, List.length_cons, ihd, List.length_drop]
          rcases le_or_lt (cs.length + 1) ratio with h | h
          · have e1 : cs.length + 1 - ratio = 0 := by omega
            rw [e1]
            rw [Nat.div_eq_of_lt (show 0 + ratio - 1 < ratio by omega)]
            have e2 : cs.length + 1 + ratio - 1 = cs.length + ratio := by omega
            rw [e2, Nat.add_div_right _ hr,
              Nat.div_eq_of_lt (show cs.length < ratio by omega)]
          · have e1 : cs.length + 1 - ratio + ratio - 1 = cs.length := by omega
            have e2 : cs.length + 1 + ratio - 1 = cs.length + ratio := by omega
            rw [e1, e2, Nat.add_div_right _ hr]

theorem groupJoin_length (ratio : Nat) (hr : 0 < ratio) (l : List (List Char)) :
    (groupJoin ratio l).length = (l.length + ratio - 1) / ratio :=
  groupJoinF_length ratio hr l.length l le_rfl

/-- With `ratio = ⌈n/m⌉` we have `n ≤ m * ratio`. -/
theorem le_mul_ceilRatio (n m : Nat) (hm : 0 < m) : n ≤ m * ceilRatio n m := by
  unfold ceilRatio
  have hdm := Nat.div_add_mod (n + m - 1) m
  have hrem : (n + m - 1) % m < m := Nat.mod_lt _ hm
  obtain ⟨t, ht⟩ : ∃ t, m * ((n + m - 1) / m) = t := ⟨_, rfl⟩
  rw [ht] at hdm ⊢
  omega

/-- With `ratio = ⌈n/m⌉`, grouping `n` chunks in batches of `ratio` yields
at most `m` groups. -/
theorem ceil_groups_le (n m : Nat) (hm : 0 < m) (hn : m < n) :
    (n + ceilRatio n m - 1) / ceilRatio n m ≤ m := by
  have hr1 : 1 ≤ ceilRatio n m := by
    unfold ceilRatio
    rw [Nat.le_div_iff_mul_le hm]
    omega
  have hnm : n ≤ m * ceilRatio n m := le_mul_ceilRatio n m hm
  rw [Nat.div_le_iff_le_mul_add_pred hr1]
  calc n + ceilRatio n m - 1 = n + (ceilRatio n m - 1) := by omega
    _ ≤ m * ceilRatio n m + (ceilRatio n m - 1) := Nat.add_le_add_right hnm _
    _ = ceilRatio n m * m + (ceilRatio n m - 1) := by rw [Nat.mul_comm]

/-- **C6.** For every block sequence and positive `maxChunks`, `chunkBlocks`
emits at most `maxChunks` chunks; moreover, whenever the raw chunk count
exceeds `maxChunks`, the grouped list built with `ratio = ⌈raw/maxChunks⌉`
already has at most `maxChunks` groups, so the final `take maxChunks`
drops nothing: the result is exactly the grouped list. -/
theorem chunkBlocks_ceiling (blocks : List (List Char)) (maxChunks : Nat)
    (h : 0 < maxChunks) :
    (chunkBlocks blocks maxChunks).length ≤ maxChunks ∧
      (maxChunks < (rawChunks blocks).length →
        (groupJoin (ceilRatio (rawChunks blocks).length maxChunks)
            (rawChunks blocks)).length ≤ maxChunks ∧
        chunkBlocks blocks maxChunks =
          groupJoin (ceilRatio (rawChunks blocks).length maxChunks) (rawChunks blocks)) := by
  have hdef : chunkBlocks blocks maxChunks =
      if (rawChunks blocks).length ≤ maxChunks then rawChunks blocks
      else (groupJoin (ceilRatio (rawChunks blocks).length maxChunks)
        (rawChunks blocks)).take maxChunks := rfl
  have hgrp : maxChunks < (rawChunks blocks).length →
      (groupJoin (ceilRatio (rawChunks blocks).length maxChunks)
        (rawChunks blocks)).length ≤ maxChunks := by
    intro hlt
    have hr1 : 0 < ceilRatio (rawChunks blocks).length maxChunks := by
      unfold ceilRatio
      have h1 : 1 ≤ ((rawChunks blocks).length + maxChunks - 1) / maxChunks := by
        rw [Nat.le_div_iff_mul_le h]; omega
      omega
    rw [groupJoin_length _ hr1]
    exact ceil_groups_le _ _ h hlt
  refine ⟨?_, fun hlt => ⟨hgrp hlt, ?_⟩⟩
  · rw [hdef]
    split
    · assumption
    · rw [List.length_take]; omega
  · rw [hdef, if_neg (by omega)]
    exact List.take_of_length_le (hgrp hlt)

/-! ## Language detection, tokenization, keywords -/

inductive Lang where
  | auto | zh | en
deriving DecidableEq

/-- `detectLanguage`: CJK ideographs vs Latin letters. -/
def detectLanguage (l : List Char) : Lang :=
  let zhCount := (l.filter isCJK).length
  let enCount := (l.filter isLatinLetter).length
  if zhCount = 0 ∧ enCount = 0 then .auto
  else if enCount ≤ zhCount then .zh else .en

/-- The combined `STOPWORDS` set of `src/index.js`. -/
def STOPWORDS : List (List Char) :=
  (["the", "and", "for", "with", "this", "that", "from", "into", "your", "when", "where",
    "what", "which", "will", "are", "is", "to", "of", "on", "in", "by", "or", "as", "an",
    "a", "be", "at", "it", "if", "else", "then",
    "我们", "你们", "他们", "可以", "需要", "进行", "以及", "通过", "一个", "一种", "这些",
    "那些", "为了", "相关", "使用", "方法", "步骤", "说明", "内容", "处理", "系统", "模块",
    "结果", "生成", "分析", "执行", "支持", "包括"] : List String).map String.toList

/-- `STOPWORDS_EN` of `src/index.js`. -/
def STOPWORDS_EN : List (List Char) :=
  (["the", "and", "for", "with", "this", "that", "from", "into", "your", "when", "where",
    "what", "which", "will", "are", "is", "to", "of", "on", "in", "by", "or", "as", "an",
    "a", "be", "at", "it", "if", "else", "then",
    "can", "should", "could", "would", "using", "used", "use", "also", "such", "than",
    "been", "was", "were"] : List String).map String.toList

/-- `STOPWORDS_ZH` of `src/index.js`. -/
def STOPWORDS_ZH : List (List Char) :=
  (["我们", "你们", "他们", "可以", "需要", "进行", "以及", "通过", "一个", "一种", "这些",
    "那些", "为了", "相关", "使用", "方法", "步骤", "说明", "内容", "处理", "系统", "模块",
    "结果", "生成", "分析", "执行", "支持", "包括",
    "实现", "进行中", "提供", "根据", "其中", "如何", "什么", "为什么", "然后", "否则",
    "如果", "当", "并且"] : List String).map String.toList

/-- Maximal runs of characters satisfying `p` (the accumulator holds the
current run reversed); models a global single-class regex such as
`/[一-龥]{2,}/g` before the length filter. -/
def runsAux (p : Char → Bool) : List Char → List Char → List (List Char)
  | cur, [] => if cur.isEmpty then [] else [cur.reverse]
  | cur, c :: rest =>
      if p c then runsAux p (c :: cur) rest
      else (if cur.isEmpty then [] else [cur.reverse]) ++ runsAux p [] rest

/-- All maximal runs of `p`-characters of length at least `k`; this is the
match list of `/CLASS{k,}/g`. -/
def runsOf (p : Char → Bool) (k : Nat) (l : List Char) : List (List Char) :=
  (runsAux p [] l).filter (fun r => k ≤ r.length)

/-- Token class of a character for the combined auto-mode regex:
`some true` = Latin `[a-z0-9]`, `some false` = CJK. -/
def tokClass (c : Char) : Option Bool :=
  if isLatinTok c then some true else if isCJK c then some false else none

/-- Emit the pending run if it meets its class's minimum length
(3 for Latin, 2 for CJK). -/
def flushTok : Option Bool → List Char → List (List Char)
  | some true, cur => if 3 ≤ cur.length then [cur.reverse] else []
  | some false, cur => if 2 ≤ cur.length then [cur.reverse] else []
  | none, _ => []

/-- Scanner for the alternation `/[a-z0-9]{3,}|[一-龥]{2,}/g`: maximal
single-class runs, in positional order, each filtered by its class's
minimum length. -/
def mixedAux : Option Bool → List Char → List Char → List (List Char)
  | cls, cur, [] => flushTok cls cur
  | cls, cur, c :: rest =>
      let cc := tokClass c
      if cc = cls ∧ cc ≠ none then mixedAux cls (c :: cur) rest
      else flushTok cls cur ++ mixedAux cc (match cc with | none => [] | some _ => [c]) rest

/-- `text.match(/[一-龥]{2,}/g) || []`. -/
def cjkTokensRaw (l : List Char) : List (List Char) := runsOf isCJK 2 l

/-- `text.toLowerCase().match(/[a-z0-9]{3,}/g) || []`. -/
def latinTokensRaw (l : List Char) : List (List Char) :=
  runsOf isLatinTok 3 (l.map jsToLower)

/-- `text.toLowerCase().match(/[a-z0-9]{3,}|[一-龥]{2,}/g) || []`. -/
def mixedTokensRaw (l : List Char) : List (List Char) := mixedAux none [] (l.map jsToLower)

/-- `tokenize` of `src/index.js`: language-selected extraction with
cross-script fallback, filtered by the applicable stopword set. -/
def tokenize (l : List Char) (langMode : Lang) : List (List Char) :=
  match (match langMode with | .auto => detectLanguage l | m => m) with
  | .zh =>
      let zhTokens := (cjkTokensRaw l).filter (fun x => !(decide (x ∈ STOPWORDS_ZH)))
      if zhTokens.isEmpty then
        (latinTokensRaw l).filter (fun x => !(decide (x ∈ STOPWORDS_EN)))
      else zhTokens
  | .en =>
      let enTokens := (latinTokensRaw l).filter (fun x => !(decide (x ∈ STOPWORDS_EN)))
      if enTokens.isEmpty then
        (cjkTokensRaw l).filter (fun x => !(decide (x ∈ STOPWORDS_ZH)))
      else enTokens
  | .auto => (mixedTokensRaw l).filter (fun x => !(decide (x ∈ STOPWORDS)))

/-- The stopword set `tokenize` actually filters with on this text/mode
(accounting for the cross-script fallback branches). -/
def appliedStopwords (l : List Char) (langMode : Lang) : List (List Char) :=
  match (match langMode with | .auto => detectLanguage l | m => m) with
  | .zh =>
      if ((cjkTokensRaw l).filter (fun x => !(decide (x ∈ STOPWORDS_ZH)))).isEmpty then
        STOPWORDS_EN
      else STOPWORDS_ZH
  | .en =>
      if ((latinTokensRaw l).filter (fun x => !(decide (x ∈ STOPWORDS_EN)))).isEmpty then
        STOPWORDS_ZH
      else STOPWORDS_EN
  | .auto => STOPWORDS

/-- One `freq.set(token, (freq.get(token) || 0) + 1)` step on the
insertion-ordered association list modelling the JS `Map`. -/
def bump (t : List Char) : List (List Char × Nat) → List (List Char × Nat)
  | [] => [(t, 1)]
  | (k, n) :: rest => if k = t then (k, n + 1) :: rest else (k, n) :: bump t rest

/-- The frequency `Map` of `topKeywords`, as an association list whose key
order is the tokens' first-appearance order. -/
def buildFreq (ts : List (List Char)) : List (List Char × Nat) :=
  ts.foldl (fun acc t => bump t acc) []

/-- Stable insertion for the descending-count sort: a new entry goes after
every entry whose count is at least its own. -/
def insertByCount (x : List Char × Nat) : List (List Char × Nat) → List (List Char × Nat)
  | [] => [x]
  | y :: ys => if x.2 ≤ y.2 then y :: insertByCount x ys else x :: y :: ys

/-- Stable sort by descending count, modelling the ES2019-stable
`sort((a, b) => b[1] - a[1])`. -/
def sortCountDesc (l : List (List Char × Nat)) : List (List Char × Nat) :=
  l.foldl (fun acc x => insertByCount x acc) []

/-- `topKeywords` of `src/index.js`. -/
def topKeywords (l : List Char) (limit : Nat) (langMode : Lang) : List (List Char) :=
  ((sortCountDesc (buildFreq (tokenize l langMode))).take limit).map Prod.fst

/-! ## Step extraction -/

/-- `text.split("\n")`. -/
def splitLines (l : List Char) : List (List Char) :=
  l.foldr
    (fun c acc =>
      if c = '\n' then [] :: acc
      else
        match acc with
        | [] => [[c]]
        | p :: ps => (c :: p) :: ps)
    [[]]

/-- Match of `/^\s*(\d+[.)、]|[-*])\s+(.+)/` against one line (the line holds
no newline), returning `m[2].trim()`.  The pattern matches exactly when,
after the marker, at least one whitespace character plus one further
character remain; greedy backtracking makes the trimmed capture equal the
trim of the remainder past the leading whitespace. -/
def matchStep1 (line : List Char) : Option (List Char) :=
  let r0 := line.dropWhile isJsSpace
  let afterMarker : Option (List Char) :=
    match r0 with
    | [] => none
    | c :: rest =>
        if isDigitCh c then
          let ds := r0.takeWhile isDigitCh
          match r0.drop ds.length with
          | sep :: rest2 =>
              if sep = '.' ∨ sep = ')' ∨ sep = '、' then some rest2 else none
          | [] => none
        else if c = '-' ∨ c = '*' then some rest
        else none
  match afterMarker with
  | none => none
  | some r1 =>
      match r1 with
      | [] => none
      | [_] => none
      | c :: _ :: _ => if isJsSpace c then some (jsTrim (r1.dropWhile isJsSpace)) else none

/-- The numeral class `[一二三四五六七八九十0-9]` of the localized step pattern. -/
def isStepNum (c : Char) : Bool :=
  isDigitCh c || ['一', '二', '三', '四', '五', '六', '七', '八', '九', '十'].contains c

/-- Match of `/^\s*(第[一二三四五六七八九十0-9]+步)\s*[：:、]?\s*(.+)$/` against one
line, returning `m[2].trim()`.  When only whitespace/separator follows
`步`, the backtracked capture trims to a string of length at most 1, which
the ≥5 filter later discards; returning the empty trim is extensionally
identical. -/
def matchStep2 (line : List Char) : Option (List Char) :=
  let r0 := line.dropWhile isJsSpace
  match r0 with
  | [] => none
  | c :: rest =>
      if c = '第' then
        let num := rest.takeWhile isStepNum
        if num.isEmpty then none
        else
          match rest.drop num.length with
          | [] => none
          | d :: r2 =>
              if d = '步' then
                if r2.isEmpty then none
                else
                  let a := r2.dropWhile isJsSpace
                  let b :=
                    match a with
                    | [] => a
                    | s :: t => if s = '：' ∨ s = ':' ∨ s = '、' then t else a
                  some (jsTrim (b.dropWhile isJsSpace))
              else none
      else none

/-- First matching `STEP_PATTERNS` entry for a line (the `break` in the
source's inner loop), yielding the trimmed capture. -/
def lineStep (line : List Char) : Option (List Char) :=
  match matchStep1 line with
  | some v => some v
  | none => matchStep2 line

/-- `extractSteps` of `src/index.js`: per-line pattern match, discard
captures of length below 5, keep the first 8. -/
def extractSteps (text : List Char) : List (List Char) :=
  (((splitLines text).filterMap lineStep).filter
    (fun v => !v.isEmpty && decide (4 < v.length))).take 8

/-! ## Condition extraction -/

/-- The shapes of the `CONDITIONAL_PATTERNS` regexes: a keyword followed by
the rest of the line (`\bif\b.+`, `如果.+`, …), or `\bif\b.+\bthen\b`. -/
inductive CondPat where
  | kwLine (kw : List Char) (ci : Bool) (boundary : Bool)
  | ifThen
deriving DecidableEq

/-- Case-insensitive-optional prefix test. -/
def startsWithCI (ci : Bool) : List Char → List Char → Bool
  | [], _ => true
  | _ :: _, [] => false
  | k :: ks, c :: cs =>
      (if ci then jsToLower c == jsToLower k else c == k) && startsWithCI ci ks cs

/-- A position boundary is a word boundary when the neighbouring character
is absent or not a `\w` character. -/
def nonWordO : Option Char → Bool
  | none => true
  | some c => !(isWordChar c)

/-- Attempted match of `\bKW\b.+` (or `KW.+` without boundaries) at the
start of `s`, `prev` being the character before `s`.  Returns the matched
text and the remaining suffix. -/
def tryKwLine (kw : List Char) (ci boundary : Bool) (prev : Option Char) (s : List Char) :
    Option (List Char × List Char) :=
  if startsWithCI ci kw s ∧
      (boundary = true → (nonWordO prev ∧ nonWordO ((s.drop kw.length).head?))) then
    let seg := (s.drop kw.length).takeWhile (fun c => c ≠ '\n')
    if seg.isEmpty then none
    else some (s.take (kw.length + seg.length), s.drop (kw.length + seg.length))
  else none

/-- Attempted match of `/\bif\b.+\bthen\b/i` at the start of `s`: greedy
`.+` ends the match at the last boundary-delimited `then` of the line that
leaves at least one character after `if`. -/
def tryIfThen (prev : Option Char) (s : List Char) : Option (List Char × List Char) :=
  if startsWithCI true ['i', 'f'] s ∧ nonWordO prev ∧ nonWordO ((s.drop 2).head?) then
    let seg := (s.drop 2).takeWhile (fun c => c ≠ '\n')
    let ok : Nat → Bool := fun q =>
      decide (1 ≤ q) && startsWithCI true ['t', 'h', 'e', 'n'] (seg.drop q) &&
        nonWordO (seg.get? (q - 1)) && nonWordO ((seg.drop (q + 4)).head?)
    match ((List.range seg.length).filter ok).getLast? with
    | some q => some (s.take (2 + q + 4), s.drop (2 + q + 4))
    | none => none
  else none

def tryPat : CondPat → Option Char → List Char → Option (List Char × List Char)
  | .kwLine kw ci bd, prev, s => tryKwLine kw ci bd prev s
  | .ifThen, prev, s => tryIfThen prev s

/-- Global scan (`match(/pat/g)`): left-to-right, non-overlapping, resuming
after each match.  Each match consumes at least one character, so fuel
`|text| + 1` never runs out. -/
def scanPatAux (pat : CondPat) : Option Char → List Char → Nat → List (List Char)
  | _, _, 0 => []
  | _, [], _ => []
  | prev, c :: rest, fuel + 1 =>
      match tryPat pat prev (c :: rest) with
      | some (m, rest2) => m :: scanPatAux pat m.getLast? rest2 fuel
      | none => scanPatAux pat (some c) rest fuel

def scanPat (pat : CondPat) (l : List Char) : List (List Char) :=
  scanPatAux pat none l (l.length + 1)

/-- The ten `CONDITIONAL_PATTERNS`, in source order. -/
def CONDITIONAL_PATTERNS : List CondPat :=
  [ .ifThen,
    .kwLine ['i', 'f'] true true,
    .kwLine ['w', 'h', 'e', 'n'] true true,
    .kwLine ['u', 'n', 'l', 'e', 's', 's'] true true,
    .kwLine ['e', 'l', 's', 'e'] true true,
    .kwLine ['如', '果'] false false,
    .kwLine ['若'] false false,
    .kwLine ['当'] false false,
    .kwLine ['否', '则'] false false,
    .kwLine ['异', '常'] false false ]

/-- `m.replace(/\s+/g, " ")`. -/
def collapseWS (l : List Char) : List Char := collapseRuns isJsSpace ' ' l

/-- `Array.from(new Set(xs))`: first-occurrence-order deduplication. -/
def dedupKeepFirst (xs : List (List Char)) : List (List Char) :=
  xs.foldl (fun acc x => if x ∈ acc then acc else acc ++ [x]) []

/-- `extractConditions` of `src/index.js`. -/
def extractConditions (text : List Char) : List (List Char) :=
  let found := (CONDITIONAL_PATTERNS.map (fun p => scanPat p text)).flatten
  let kept := (found.map (fun m => jsTrim (collapseWS m))).filter
    (fun c => decide (8 ≤ c.length ∧ c.length ≤ 100))
  (dedupKeepFirst kept).take 8

/-! ## Routing score, Jaccard, dependency graph -/

/-- `Math.round(a / b)` for non-negative operands: half-up rounding,
`⌊a/b + 1/2⌋ = (2a + b) / (2b)`. -/
def jsRoundDiv (a b : Nat) : Nat := (2 * a + b) / (2 * b)

/-- `estimateRoutingScore` of `src/index.js`. -/
def estimateRoutingScore (keywords steps conditions : List (List Char))
    (queryTokens : List (List Char)) : Nat :=
  if queryTokens.isEmpty then 60
  else
    let overlap := (queryTokens.filter (fun x => decide (x ∈ keywords))).length
    let density := min 25 (jsRoundDiv (keywords.length * 25) 12)
    let conditionBonus := min 20 (conditions.length * 4)
    let stepBonus := min 15 (steps.length * 3)
    let overlapScore := min 40 (overlap * 8)
    max 0 (min 100 (overlapScore + density + conditionBonus + stepBonus))

/-- `jaccard` of `src/index.js`: the two arrays become sets; 0 when both
are empty or the union is empty, else `|∩| / |∪|` (the source computes the
union size as `sa.size + sb.size - inter`). -/
def jaccard (a b : List (List Char)) : ℚ :=
  let sa := a.toFinset
  let sb := b.toFinset
  if sa.card = 0 ∧ sb.card = 0 then 0
  else
    let inter := (sa ∩ sb).card
    let union := sa.card + sb.card - inter
    if union = 0 then 0 else (inter : ℚ) / (union : ℚ)

/-- `Number(score.toFixed(2))` for the non-negative scores produced here:
round half-up at two decimals. -/
def round2 (q : ℚ) : ℚ := (⌊q * 100 + 1 / 2⌋ : ℚ) / 100

structure SkillItem where
  id : List Char
  title : List Char
  trigger : List Char
  content : List Char
  keywords : List (List Char)
  steps : List (List Char)
  conditions : List (List Char)
  baseScore : Nat
deriving DecidableEq

/-- A dependency edge; `from` is a Lean keyword, hence `fromId`/`toId`. -/
structure DepEdge where
  fromId : List Char
  toId : List Char
  weight : ℚ
deriving DecidableEq

/-- The `Map` key `` `${d.from}->${d.to}` ``. -/
def depKey (d : DepEdge) : List Char := d.fromId ++ ('-' :: '>' :: d.toId)

/-- One `dedup.set(key, d)` step: a JS `Map` keeps the original insertion
position of an existing key and updates its value, otherwise appends. -/
def upsert (d : DepEdge) : List DepEdge → List DepEdge
  | [] => [d]
  | e :: es => if depKey e = depKey d then d :: es else e :: upsert d es

/-- The double loop of `buildDependencies` (before deduplication; the
source's `score` local is inlined). -/
def buildDepsRaw (items : List SkillItem) : List DepEdge :=
  (items.enum.map (fun a =>
    items.enum.filterMap (fun b =>
      if a.1 = b.1 then none
      else if (22 : ℚ) / 100 ≤ jaccard a.2.keywords b.2.keywords then
        some ⟨a.2.id, b.2.id, round2 (jaccard a.2.keywords b.2.keywords)⟩
      else none))).flatten

/-- `buildDependencies` of `src/index.js`. -/
def buildDependencies (items : List SkillItem) : List DepEdge :=
  (buildDepsRaw items).foldl (fun acc d => upsert d acc) []

/-! ## The run pipeline -/

/-- Leading class of `toTitle`'s `replace(/^[-*#\d.\s]+/, "")`. -/
def isTitleLead (c : Char) : Bool :=
  c == '-' || c == '*' || c == '#' || isDigitCh c || c == '.' || isJsSpace c

/-- Trailing class of `toTitle`'s `replace(/[。.!?；;:：]+$/, "")`. -/
def isTitleTrail (c : Char) : Bool :=
  c == '。' || c == '.' || c == '!' || c == '?' || c == '；' || c == ';' ||
    c == ':' || c == '：'

/-- `String(n).padStart(3, "0")`. -/
def pad3 (n : Nat) : List Char :=
  let s := (Nat.repr n).toList
  List.replicate (3 - s.length) '0' ++ s

/-- `toTitle` of `src/index.js`. -/
def toTitle (line : List Char) (index : Nat) : List Char :=
  let clean := jsTrim ((line.dropWhile isTitleLead).reverse.dropWhile isTitleTrail).reverse
  if clean.isEmpty then "skill-".toList ++ pad3 (index + 1)
  else clean.take 42

/-- `chunk.split("\n")[0] || ""`. -/
def firstLine (chunk : List Char) : List Char := chunk.takeWhile (fun c => c ≠ '\n')

/-- One element of the `skillItems` map in `run` (lines 508–526). -/
def mkSkillItem (langMode : Lang) (idx : Nat) (chunk : List Char) : SkillItem :=
  let title := toTitle (firstLine chunk) idx
  let keywords := topKeywords chunk 12 langMode
  let steps := extractSteps chunk
  let conditions := extractConditions chunk
  { id := "skill-".toList ++ pad3 (idx + 1)
    title := title
    trigger := if 24 < title.length then title.take 24 ++ "...".toList else title
    content := chunk
    keywords := keywords
    steps := steps
    conditions := conditions
    baseScore := estimateRoutingScore keywords steps conditions (keywords.take 5) }

/-- `chunkBlocks` output filtered by the second-stage `> 80` length filter
(`clippedChunks` in `run`). -/
def pipelineChunks (text : List Char) (maxChunks : Nat) : List (List Char) :=
  (chunkBlocks (splitSemanticBlocks (normalizeText text)) maxChunks).filter
    (fun x => decide (80 < strippedLen x))

inductive CompileError where
  /-- "Failed to extract text from PDF (empty output)" -/
  | emptyExtraction
  /-- "No meaningful semantic chunks extracted from PDF" -/
  | noSemanticContent
deriving DecidableEq

/-- The fixed header of `buildIndexMd` (8 lines; the cutoff is line 4). -/
def indexHeaderLines (minScore : Int) : List (List Char) :=
  [ "# Skill Index".toList,
    [],
    "This file routes user requests to atomic skills.".toList,
    [],
    "Routing score cutoff: ".toList ++ (toString minScore).toList,
    [],
    "| Skill ID | Topic | Trigger Hint | Base Score |".toList,
    "|---|---|---|---|".toList ]

/-- One item row of `buildIndexMd`. -/
def indexItemRow (it : SkillItem) : List Char :=
  "| ".toList ++ it.id ++ " | ".toList ++ it.title ++ " | ".toList ++ it.trigger ++
    " | ".toList ++ (Nat.repr it.baseScore).toList ++ " |".toList

/-- `buildIndexMd` of `src/index.js`, as its list of lines. -/
def buildIndexMdLines (items : List SkillItem) (minScore : Int) : List (List Char) :=
  indexHeaderLines minScore ++ items.map indexItemRow

/-- The parts of the compiled pack the claims quantify over: items, edges,
the index file, and the recorded cutoff (the `minScore` field of
`routes.json`). -/
structure RunOutput where
  items : List SkillItem
  deps : List DepEdge
  indexLines : List (List Char)
  routesMinScore : Int
deriving DecidableEq

/-- The `skillItems` array of `run`: one `mkSkillItem` per surviving chunk,
indexed in order. -/
def skillItems (text : List Char) (maxChunks : Nat) (langMode : Lang) : List SkillItem :=
  (pipelineChunks text maxChunks).enum.map (fun p => mkSkillItem langMode p.1 p.2)

/-- The core of `run` (lines 494–528 of `src/index.js`) on one text blob:
normalize, fail on empty text, segment/chunk/filter, fail when nothing
survives, then build items, dependency graph and index. -/
def compileRun (text : List Char) (maxChunks : Nat) (langMode : Lang) (minScore : Int) :
    Except CompileError RunOutput :=
  let normalized := normalizeText text
  if normalized.isEmpty then .error .emptyExtraction
  else
    let clippedChunks := pipelineChunks text maxChunks
    if clippedChunks.isEmpty then .error .noSemanticContent
    else
      .ok
        { items := skillItems text maxChunks langMode
          deps := buildDependencies (skillItems text maxChunks langMode)
          indexLines := buildIndexMdLines (skillItems text maxChunks langMode) minScore
          routesMinScore := minScore }

/-! ## The frequency map: `buildFreq` versus its extensional description -/

/-- First-occurrence-order list of the distinct elements of `ts` (the key
order of the insertion-ordered JS `Map`). -/
def dedupFirst : List (List Char) → List (List Char)
  | [] => []
  | x :: xs => x :: dedupFirst (xs.filter (fun y => !(decide (y = x))))
termination_by l => l.length
decreasing_by
  simp only [List.length_cons]
  exact Nat.lt_succ_of_le (List.length_filter_le _ _)

theorem dedupFirst_nil : dedupFirst [] = [] := by rw [dedupFirst]

theorem dedupFirst_cons (x : List Char) (xs : List (List Char)) :
    dedupFirst (x :: xs) = x :: dedupFirst (xs.filter (fun y => !(decide (y = x)))) := by
  rw [dedupFirst]

theorem mem_of_mem_dedupFirst : ∀ (l : List (List Char)) {x : List Char},
    x ∈ dedupFirst l → x ∈ l := by
  intro l
  induction l using dedupFirst.induct with
  | case1 => intro x h; rw [dedupFirst_nil] at h; cases h
  | case2 a xs ih =>
      intro x h
      rw [dedupFirst_cons] at h
      rcases List.mem_cons.mp h with h | h
      · exact h ▸ List.mem_cons_self _ _
      · exact List.mem_cons_of_mem _ (List.mem_of_mem_filter (ih h))

theorem dedupFirst_nodup : ∀ l : List (List Char), (dedupFirst l).Nodup := by
  intro l
  induction l using dedupFirst.induct with
  | case1 => rw [dedupFirst_nil]; exact List.nodup_nil
  | case2 a xs ih =>
      rw [dedupFirst_cons]
      refine List.Nodup.cons (fun hmem => ?_) ih
      have := List.of_mem_filter (mem_of_mem_dedupFirst _ hmem)
      simp at this

/-- Extensional form of the `Map`: distinct keys in first-appearance order,
each paired with its total occurrence count. -/
def freqEntries (ts : List (List Char)) : List (List Char × Nat) :=
  (dedupFirst ts).map (fun k => (k, ts.count k))

theorem bump_keys (t : List Char) : ∀ acc : List (List Char × Nat),
    (bump t acc).map Prod.fst =
      if t ∈ acc.map Prod.fst then acc.map Prod.fst else acc.map Prod.fst ++ [t] := by
  intro acc
  induction acc with
  | nil => simp [bump]
  | cons p acc ih =>
      obtain ⟨k, n⟩ := p
      by_cases hk : k = t
      · subst hk
        simp [bump]
      · simp only [bump, if_neg hk, List.map_cons]
        rw [ih]
        by_cases hm : t ∈ acc.map Prod.fst
        · rw [if_pos hm, if_pos (by simp [hm])]
        · rw [if_neg hm, if_neg (by simp [hm, Ne.symm hk]), List.cons_append]

theorem bump_map_add (t : List Char) (rest : List (List Char)) :
    ∀ acc : List (List Char × Nat), (acc.map Prod.fst).Nodup →
      (bump t acc).map (fun p => (p.1, p.2 + rest.count p.1)) =
        if t ∈ acc.map Prod.fst then
          acc.map (fun p => (p.1, p.2 + (t :: rest).count p.1))
        else
          acc.map (fun p => (p.1, p.2 + rest.count p.1)) ++ [(t, 1 + rest.count t)] := by
  intro acc
  induction acc with
  | nil => simp [bump, Nat.add_comm]
  | cons p acc ih =>
      obtain ⟨k, n⟩ := p
      intro hnd
      simp only [List.map_cons] at hnd
      have hndt := hnd.of_cons
      by_cases hk : t = k
      · subst hk
        rw [if_pos (by simp)]
        have htacc : ∀ p ∈ acc, p.1 ≠ t := by
          intro p hp hpt
          exact (List.nodup_cons.mp hnd).1 (hpt ▸ List.mem_map_of_mem Prod.fst hp)
        simp only [bump, eq_self_iff_true, if_true, List.map_cons, List.count_cons_self,
          List.cons.injEq, Prod.mk.injEq, true_and]
        refine ⟨by omega, ?_⟩
        exact List.map_congr_left fun p hp => by
          rw [List.count_cons_of_ne (htacc p hp)]
      · have hk2 : ¬k = t := fun h => hk h.symm
        simp only [bump, if_neg hk2, List.map_cons]
        by_cases hm : t ∈ acc.map Prod.fst
        · rw [if_pos (by simp [hm]), List.count_cons_of_ne (Ne.symm hk), ih hndt, if_pos hm]
        · rw [if_neg (by simp [hm, hk]), ih hndt, if_neg hm]
          simp

theorem freqEntries_cons (t : List Char) (l : List (List Char)) :
    freqEntries (t :: l) =
      (t, l.count t + 1) ::
        (dedupFirst (l.filter (fun y => !(decide (y = t))))).map
          (fun k => (k, (t :: l).count k)) := by
  unfold freqEntries
  rw [dedupFirst_cons, List.map_cons, List.count_cons_self]

/-- The `Map`-building fold of `topKeywords` computes exactly the
first-appearance-ordered keys with their total counts. -/
theorem buildFreq_go (ts : List (List Char)) :
    ∀ acc : List (List Char × Nat), (acc.map Prod.fst).Nodup →
      ts.foldl (fun a t => bump t a) acc =
        acc.map (fun p => (p.1, p.2 + ts.count p.1)) ++
          freqEntries (ts.filter (fun t => !(decide (t ∈ acc.map Prod.fst)))) := by
  induction ts with
  | nil =>
      intro acc _
      simp [freqEntries, dedupFirst_nil]
  | cons t ts ih =>
      intro acc hnd
      rw [List.foldl_cons]
      have hbk := bump_keys t acc
      by_cases hm : t ∈ acc.map Prod.fst
      · have hkeys : (bump t acc).map Prod.fst = acc.map Prod.fst := by
          rw [hbk, if_pos hm]
        rw [ih (bump t acc) (by rw [hkeys]; exact hnd)]
        simp only [hkeys]
        rw [bump_map_add t ts acc hnd, if_pos hm]
        congr 1
        rw [List.filter_cons_of_neg (by simp [hm])]
      · have hkeys : (bump t acc).map Prod.fst = acc.map Prod.fst ++ [t] := by
          rw [hbk, if_neg hm]
        have hnd2 : ((bump t acc).map Prod.fst).Nodup := by
          rw [hkeys]; simp [List.nodup_append, hnd, hm]
        rw [ih (bump t acc) hnd2]
        simp only [hkeys]
        rw [bump_map_add t ts acc hnd, if_neg hm, List.append_assoc]
        congr 1
        · exact List.map_congr_left fun p hp => by
            have hpt : p.1 ≠ t := fun h => hm (h ▸ List.mem_map_of_mem Prod.fst hp)
            rw [List.count_cons_of_ne hpt]
        · rw [List.filter_cons_of_pos (by simp [hm]), freqEntries_cons,
            List.singleton_append,
            @List.count_filter _ _ _ (fun x => !(decide (x ∈ List.map Prod.fst acc))) t ts
              (by simp [hm]),
            Nat.add_comm 1 (List.count t ts)]
          congr 1
          have hpredt : (fun x => !(decide (x ∈ acc.map Prod.fst ++ [t]))) =
              fun x => (!(decide (x = t))) && !(decide (x ∈ acc.map Prod.fst)) := by
            funext a
            by_cases h1 : a = t <;> by_cases h2 : a ∈ acc.map Prod.fst <;> simp [h1, h2]
          rw [hpredt, ← List.filter_filter]
          unfold freqEntries
          refine List.map_congr_left fun k hk => ?_
          have hk2 := List.mem_filter.mp (mem_of_mem_dedupFirst _ hk)
          have hknt : k ≠ t := by simpa using hk2.2
          rw [List.count_cons_of_ne hknt,
            @List.count_filter _ _ _ (fun y => !(decide (y = t))) k
              (List.filter (fun x => !(decide (x ∈ List.map Prod.fst acc))) ts)
              (by simpa using hknt)]

theorem buildFreq_eq (ts : List (List Char)) : buildFreq ts = freqEntries ts := by
  unfold buildFreq
  rw [buildFreq_go ts [] (by simp)]
  simp

theorem buildFreq_keys (ts : List (List Char)) :
    (buildFreq ts).map Prod.fst = dedupFirst ts := by
  rw [buildFreq_eq]
  simp [freqEntries, List.map_map, Function.comp_def]

theorem mem_buildFreq (ts : List (List Char)) {p : List Char × Nat}
    (hp : p ∈ buildFreq ts) : p.1 ∈ ts ∧ p.2 = ts.count p.1 := by
  rw [buildFreq_eq] at hp
  unfold freqEntries at hp
  obtain ⟨k, hk, rfl⟩ := List.mem_map.mp hp
  exact ⟨mem_of_mem_dedupFirst _ hk, rfl⟩

/-- Index of the first occurrence of `a` (the position of the token's first
appearance; `a ∉ l` yields `l.length`, as with `indexOf`). -/
def firstIdx (a : List Char) : List (List Char) → Nat
  | [] => 0
  | x :: xs => if x = a then 0 else firstIdx a xs + 1

theorem firstIdx_cons_self (a : List Char) (l : List (List Char)) :
    firstIdx a (a :: l) = 0 := by simp [firstIdx]

theorem firstIdx_cons_ne {x a : List Char} (l : List (List Char)) (h : ¬x = a) :
    firstIdx a (x :: l) = firstIdx a l + 1 := by simp [firstIdx, h]

/-- The keys of the frequency map are ordered by first appearance: earlier
keys have smaller `firstIdx` in the token list. -/
theorem dedupFirst_filter_pairwise (ts : List (List Char)) :
    ∀ p : List Char → Bool,
      (dedupFirst (ts.filter p)).Pairwise (fun a b => firstIdx a ts < firstIdx b ts) := by
  induction ts with
  | nil => intro p; simp [dedupFirst_nil]
  | cons t ts ih =>
      intro p
      by_cases hp : p t
      · rw [List.filter_cons_of_pos hp, dedupFirst_cons, List.filter_filter]
        refine List.Pairwise.cons ?_ ?_
        · intro b hb
          have hb2 := List.mem_filter.mp (mem_of_mem_dedupFirst _ hb)
          have hbne : ¬(b = t) := by
            have := hb2.2
            simp only [Bool.and_eq_true, Bool.not_eq_true', decide_eq_false_iff_not] at this
            exact this.1
          rw [firstIdx_cons_self, firstIdx_cons_ne _ (fun h => hbne h.symm)]
          exact Nat.succ_pos _
        · refine (ih (fun a => (!(decide (a = t))) && p a)).imp_of_mem ?_
          intro a b ha hb hab
          have ha2 := List.mem_filter.mp (mem_of_mem_dedupFirst _ ha)
          have hb2 := List.mem_filter.mp (mem_of_mem_dedupFirst _ hb)
          have hane : ¬(a = t) := by
            have := ha2.2
            simp only [Bool.and_eq_true, Bool.not_eq_true', decide_eq_false_iff_not] at this
            exact this.1
          have hbne : ¬(b = t) := by
            have := hb2.2
            simp only [Bool.and_eq_true, Bool.not_eq_true', decide_eq_false_iff_not] at this
            exact this.1
          rw [firstIdx_cons_ne _ (fun h => hane h.symm),
            firstIdx_cons_ne _ (fun h => hbne h.symm)]
          exact Nat.succ_lt_succ hab
      · rw [List.filter_cons_of_neg hp]
        refine (ih p).imp_of_mem ?_
        intro a b ha hb hab
        have ha2 := List.mem_filter.mp (mem_of_mem_dedupFirst _ ha)
        have hb2 := List.mem_filter.mp (mem_of_mem_dedupFirst _ hb)
        have hane : ¬(a = t) := fun h => hp (h ▸ ha2.2)
        have hbne : ¬(b = t) := fun h => hp (h ▸ hb2.2)
        rw [firstIdx_cons_ne _ (fun h => hane h.symm),
          firstIdx_cons_ne _ (fun h => hbne h.symm)]
        exact Nat.succ_lt_succ hab

theorem dedupFirst_pairwise (ts : List (List Char)) :
    (dedupFirst ts).Pairwise (fun a b => firstIdx a ts < firstIdx b ts) := by
  have := dedupFirst_filter_pairwise ts (fun _ => true)
  simpa using this

/-! ## The stable descending sort -/

theorem insertByCount_perm (x : List Char × Nat) :
    ∀ acc : List (List Char × Nat), (insertByCount x acc).Perm (x :: acc) := by
  intro acc
  induction acc with
  | nil => simp [insertByCount]
  | cons y ys ih =>
      unfold insertByCount
      split
      · exact ((ih.cons y).trans (List.Perm.swap x y ys))
      · exact List.Perm.refl _

theorem mem_insertByCount {x y : List Char × Nat} {acc : List (List Char × Nat)} :
    y ∈ insertByCount x acc ↔ y = x ∨ y ∈ acc := by
  rw [(insertByCount_perm x acc).mem_iff, List.mem_cons]

theorem insertByCount_pairwise {Q : (List Char × Nat) → (List Char × Nat) → Prop}
    (x : List Char × Nat) :
    ∀ acc : List (List Char × Nat),
      acc.Pairwise (fun a b => b.2 < a.2 ∨ (a.2 = b.2 ∧ Q a b)) →
      (∀ y ∈ acc, Q y x) →
      (insertByCount x acc).Pairwise (fun a b => b.2 < a.2 ∨ (a.2 = b.2 ∧ Q a b)) := by
  intro acc
  induction acc with
  | nil => intro _ _; simp [insertByCount]
  | cons y ys ih =>
      intro hpw hq
      have hrel : ∀ a b : List Char × Nat,
          (b.2 < a.2 ∨ (a.2 = b.2 ∧ Q a b)) → b.2 ≤ a.2 := by
        rintro a b (h | ⟨h, _⟩) <;> omega
      unfold insertByCount
      split
      · -- x.2 ≤ y.2 : keep y in front, insert into the tail
        rename_i hle
        refine List.Pairwise.cons ?_ (ih (List.Pairwise.of_cons hpw) (fun z hz => hq z (List.mem_cons_of_mem _ hz)))
        intro z hz
        rcases mem_insertByCount.mp hz with rfl | hz2
        · rcases Nat.lt_or_ge z.2 y.2 with h | h
          · exact Or.inl h
          · exact Or.inr ⟨Nat.le_antisymm h hle, hq y (List.mem_cons_self _ _)⟩
        · exact (List.pairwise_cons.mp hpw).1 z hz2
      · -- y.2 < x.2 : x goes in front of everything
        rename_i hgt
        have hxy : y.2 < x.2 := by omega
        refine List.Pairwise.cons ?_ hpw
        intro z hz
        rcases List.mem_cons.mp hz with rfl | hz2
        · exact Or.inl hxy
        · have : z.2 ≤ y.2 := hrel y z ((List.pairwise_cons.mp hpw).1 z hz2)
          exact Or.inl (by omega)

theorem sortCountDesc_go {Q : (List Char × Nat) → (List Char × Nat) → Prop} :
    ∀ (l acc : List (List Char × Nat)),
      acc.Pairwise (fun a b => b.2 < a.2 ∨ (a.2 = b.2 ∧ Q a b)) →
      (∀ y ∈ acc, ∀ x ∈ l, Q y x) →
      l.Pairwise Q →
      (l.foldl (fun a x => insertByCount x a) acc).Pairwise
        (fun a b => b.2 < a.2 ∨ (a.2 = b.2 ∧ Q a b)) := by
  intro l
  induction l with
  | nil => intro acc h _ _; simpa using h
  | cons x l ih =>
      intro acc hacc hQ hl
      rw [List.foldl_cons]
      refine ih (insertByCount x acc) ?_ ?_ (List.Pairwise.of_cons hl)
      · exact insertByCount_pairwise x acc hacc
          (fun y hy => hQ y hy x (List.mem_cons_self _ _))
      · intro y hy z hz
        rcases mem_insertByCount.mp hy with rfl | hy2
        · exact (List.pairwise_cons.mp hl).1 z hz
        · exact hQ y hy2 z (List.mem_cons_of_mem _ hz)

theorem sortCountDesc_perm (l : List (List Char × Nat)) : (sortCountDesc l).Perm l := by
  suffices h : ∀ (l acc : List (List Char × Nat)),
      (l.foldl (fun a x => insertByCount x a) acc).Perm (acc ++ l) by
    simpa using h l []
  intro l
  induction l with
  | nil => intro acc; simp
  | cons x l ih =>
      intro acc
      rw [List.foldl_cons]
      refine (ih (insertByCount x acc)).trans ?_
      refine ((insertByCount_perm x acc).append_right l).trans ?_
      exact List.perm_middle.symm

theorem sortCountDesc_pairwise {Q : (List Char × Nat) → (List Char × Nat) → Prop}
    (l : List (List Char × Nat)) (h : l.Pairwise Q) :
    (sortCountDesc l).Pairwise (fun a b => b.2 < a.2 ∨ (a.2 = b.2 ∧ Q a b)) :=
  sortCountDesc_go l [] (by simp) (by simp) h

/-! ## Keyword-list facts -/

theorem mem_filter_not_stop {xs S : List (List Char)} {x : List Char}
    (h : x ∈ xs.filter (fun y => !(decide (y ∈ S)))) : ¬ x ∈ S := by
  have := List.of_mem_filter h
  simpa using this

/-- Every token `tokenize` returns avoids the stopword set of the branch
that produced it. -/
theorem tokenize_not_stopword (l : List Char) (m : Lang) :
    ∀ x ∈ tokenize l m, ¬ x ∈ appliedStopwords l m := by
  intro x hx
  unfold tokenize at hx
  unfold appliedStopwords
  set s := (match m with | Lang.auto => detectLanguage l | m => m) with hs
  clear_value s
  cases s with
  | zh =>
      by_cases he : ((cjkTokensRaw l).filter (fun x => !(decide (x ∈ STOPWORDS_ZH)))).isEmpty
      · rw [if_pos he] at hx ⊢
        exact mem_filter_not_stop hx
      · rw [if_neg he] at hx ⊢
        exact mem_filter_not_stop hx
  | en =>
      by_cases he : ((latinTokensRaw l).filter (fun x => !(decide (x ∈ STOPWORDS_EN)))).isEmpty
      · rw [if_pos he] at hx ⊢
        exact mem_filter_not_stop hx
      · rw [if_neg he] at hx ⊢
        exact mem_filter_not_stop hx
  | auto => exact mem_filter_not_stop hx

theorem mem_topKeywords_mem_tokenize (l : List Char) (limit : Nat) (m : Lang) :
    ∀ k ∈ topKeywords l limit m, k ∈ tokenize l m := by
  intro k hk
  unfold topKeywords at hk
  obtain ⟨p, hp, rfl⟩ := List.mem_map.mp hk
  have hp2 : p ∈ sortCountDesc (buildFreq (tokenize l m)) := List.mem_of_mem_take hp
  have hp3 : p ∈ buildFreq (tokenize l m) := (sortCountDesc_perm _).mem_iff.mp hp2
  exact (mem_buildFreq _ hp3).1

/-- The keyword list is sorted by descending frequency over the token list,
ties broken by first appearance. -/
theorem topKeywords_pairwise (l : List Char) (limit : Nat) (m : Lang) :
    (topKeywords l limit m).Pairwise (fun a b =>
      (tokenize l m).count b < (tokenize l m).count a ∨
        ((tokenize l m).count a = (tokenize l m).count b ∧
          firstIdx a (tokenize l m) < firstIdx b (tokenize l m))) := by
  have hfreqQ : (buildFreq (tokenize l m)).Pairwise
      (fun p q => firstIdx p.1 (tokenize l m) < firstIdx q.1 (tokenize l m)) := by
    rw [buildFreq_eq]
    unfold freqEntries
    rw [List.pairwise_map]
    exact dedupFirst_pairwise _
  have hsorted := sortCountDesc_pairwise _ hfreqQ
  have htake := hsorted.sublist (List.take_sublist limit _)
  unfold topKeywords
  rw [List.pairwise_map]
  refine htake.imp_of_mem ?_
  intro a b ha hb hab
  have haf : a ∈ buildFreq (tokenize l m) :=
    (sortCountDesc_perm _).mem_iff.mp (List.mem_of_mem_take ha)
  have hbf : b ∈ buildFreq (tokenize l m) :=
    (sortCountDesc_perm _).mem_iff.mp (List.mem_of_mem_take hb)
  rw [← (mem_buildFreq _ haf).2, ← (mem_buildFreq _ hbf).2]
  exact hab

theorem topKeywords_nodup (l : List Char) (limit : Nat) (m : Lang) :
    (topKeywords l limit m).Nodup := by
  refine (topKeywords_pairwise l limit m).imp ?_
  intro a b hab
  rintro rfl
  rcases hab with h | ⟨h1, h2⟩ <;> omega

theorem topKeywords_length_le (l : List Char) (limit : Nat) (m : Lang) :
    (topKeywords l limit m).length ≤ limit := by
  unfold topKeywords
  rw [List.length_map]
  exact (List.length_take _ _).le.trans (by simp)

/-- **C2.** For every compiled item's keyword list (`topKeywords` at limit
12, the value `run` passes): at most 12 entries, all distinct, none in the
stopword set of the tokenization branch actually used, and ordered by
descending token frequency with ties broken by the token's first appearance
in the chunk's token sequence. -/
theorem keywords_bound_distinct_sorted (text : List Char) (mode : Lang) :
    (topKeywords text 12 mode).length ≤ 12 ∧
      (topKeywords text 12 mode).Nodup ∧
      (∀ k ∈ topKeywords text 12 mode, ¬ k ∈ appliedStopwords text mode) ∧
      (topKeywords text 12 mode).Pairwise (fun a b =>
        (tokenize text mode).count b < (tokenize text mode).count a ∨
          ((tokenize text mode).count a = (tokenize text mode).count b ∧
            firstIdx a (tokenize text mode) < firstIdx b (tokenize text mode))) :=
  ⟨topKeywords_length_le text 12 mode, topKeywords_nodup text 12 mode,
    fun k hk => tokenize_not_stopword text mode k (mem_topKeywords_mem_tokenize text 12 mode k hk),
    topKeywords_pairwise text 12 mode⟩

/-! ## Routing score -/

/-- Unfolded form of `compileRun` (the `let`s of the definition reduced). -/
theorem compileRun_eq (text : List Char) (maxChunks : Nat) (lang : Lang) (minScore : Int) :
    compileRun text maxChunks lang minScore =
      if (normalizeText text).isEmpty then .error .emptyExtraction
      else if (pipelineChunks text maxChunks).isEmpty then .error .noSemanticContent
      else
        .ok
          { items := skillItems text maxChunks lang
            deps := buildDependencies (skillItems text maxChunks lang)
            indexLines := buildIndexMdLines (skillItems text maxChunks lang) minScore
            routesMinScore := minScore } := rfl

/-- Destructured form of a successful `compileRun`. -/
theorem compileRun_ok_items {text : List Char} {maxChunks : Nat} {lang : Lang}
    {minScore : Int} {r : RunOutput}
    (h : compileRun text maxChunks lang minScore = .ok r) :
    r.items = skillItems text maxChunks lang ∧
      r.deps = buildDependencies (skillItems text maxChunks lang) ∧
      r.indexLines = buildIndexMdLines (skillItems text maxChunks lang) minScore ∧
      r.routesMinScore = minScore := by
  rw [compileRun_eq] at h
  split at h
  · exact absurd h (by simp)
  · split at h
    · exact absurd h (by simp)
    · obtain ⟨ri, rd, rl, rs⟩ := r
      rw [Except.ok.injEq, RunOutput.mk.injEq] at h
      obtain ⟨h1, h2, h3, h4⟩ := h
      exact ⟨h1.symm, h2.symm, h3.symm, h4.symm⟩

/-- **C3.** Every compiled item (each item `run` builds is
`mkSkillItem lang idx chunk`, see `compileRun`) has
`baseScore = clamp(overlapScore + densityScore + conditionBonus + stepBonus, 0, 100)`
with `overlapScore = min(40, 8·|probe ∩ keywords|)`,
`densityScore = min(25, round(25·|keywords|/12))` (half-up rounding,
`jsRoundDiv`), `conditionBonus = min(20, 4·|conditions|)`,
`stepBonus = min(15, 3·|steps|)`, the probe being the item's own top-5
keywords; an empty probe forces the score 60; and the score never exceeds
100 (it is a natural number, hence also at least 0). -/
theorem baseScore_formula (lang : Lang) (idx : Nat) (chunk : List Char) :
    ((mkSkillItem lang idx chunk).baseScore =
        if ((mkSkillItem lang idx chunk).keywords.take 5).isEmpty then 60
        else
          min 100
            (min 40 (8 * (((mkSkillItem lang idx chunk).keywords.take 5).toFinset ∩
                (mkSkillItem lang idx chunk).keywords.toFinset).card) +
              min 25 (jsRoundDiv (25 * (mkSkillItem lang idx chunk).keywords.length) 12) +
              min 20 (4 * (mkSkillItem lang idx chunk).conditions.length) +
              min 15 (3 * (mkSkillItem lang idx chunk).steps.length))) ∧
      (mkSkillItem lang idx chunk).baseScore ≤ 100 ∧
      (((mkSkillItem lang idx chunk).keywords.take 5).isEmpty →
        (mkSkillItem lang idx chunk).baseScore = 60) := by
  have hkw : (mkSkillItem lang idx chunk).keywords = topKeywords chunk 12 lang := rfl
  have hst : (mkSkillItem lang idx chunk).steps = extractSteps chunk := rfl
  have hcd : (mkSkillItem lang idx chunk).conditions = extractConditions chunk := rfl
  have hbs : (mkSkillItem lang idx chunk).baseScore =
      estimateRoutingScore (topKeywords chunk 12 lang) (extractSteps chunk)
        (extractConditions chunk) ((topKeywords chunk 12 lang).take 5) := rfl
  rw [hkw, hst, hcd, hbs]
  simp only [estimateRoutingScore]
  by_cases he : ((topKeywords chunk 12 lang).take 5).isEmpty
  · rw [if_pos he, if_pos he]
    exact ⟨rfl, by omega, fun _ => rfl⟩
  · rw [if_neg he, if_neg he]
    have hnodup : ((topKeywords chunk 12 lang).take 5).Nodup :=
      (topKeywords_nodup chunk 12 lang).sublist (List.take_sublist _ _)
    have hsub : ∀ x ∈ (topKeywords chunk 12 lang).take 5, x ∈ topKeywords chunk 12 lang :=
      fun x hx => List.mem_of_mem_take hx
    have hfilter : ((topKeywords chunk 12 lang).take 5).filter
        (fun x => decide (x ∈ topKeywords chunk 12 lang)) =
          (topKeywords chunk 12 lang).take 5 :=
      List.filter_eq_self.mpr (fun x hx => by simpa using hsub x hx)
    have hcard : (((topKeywords chunk 12 lang).take 5).toFinset ∩
        (topKeywords chunk 12 lang).toFinset).card =
          ((topKeywords chunk 12 lang).take 5).length := by
      rw [Finset.inter_eq_left.mpr
        (fun a ha => List.mem_toFinset.mpr (hsub a (List.mem_toFinset.mp ha)))]
      exact List.toFinset_card_of_nodup hnodup
    rw [hfilter, hcard]
    unfold jsRoundDiv
    refine ⟨?_, ?_, fun habs => absurd habs he⟩
    · rw [Nat.zero_max]
      simp [Nat.mul_comm]
    · rw [Nat.zero_max]
      exact Nat.min_le_left _ _

/-! ## Jaccard similarity and edge rounding -/

theorem jaccard_nonneg (a b : List (List Char)) : 0 ≤ jaccard a b := by
  simp only [jaccard]
  split
  · exact le_refl 0
  · split
    · exact le_refl 0
    · positivity

theorem jaccard_le_one (a b : List (List Char)) : jaccard a b ≤ 1 := by
  simp only [jaccard]
  split
  · exact zero_le_one
  · split
    · exact zero_le_one
    · rename_i hne hu
      have hia : (a.toFinset ∩ b.toFinset).card ≤ a.toFinset.card :=
        Finset.card_le_card Finset.inter_subset_left
      have hib : (a.toFinset ∩ b.toFinset).card ≤ b.toFinset.card :=
        Finset.card_le_card Finset.inter_subset_right
      have hu2 : (0 : ℚ) <
          ((a.toFinset.card + b.toFinset.card - (a.toFinset ∩ b.toFinset).card : ℕ) : ℚ) := by
        exact_mod_cast Nat.pos_of_ne_zero hu
      rw [div_le_one hu2]
      have hle : (a.toFinset ∩ b.toFinset).card ≤
          a.toFinset.card + b.toFinset.card - (a.toFinset ∩ b.toFinset).card := by omega
      exact_mod_cast hle

theorem jaccard_comm (a b : List (List Char)) : jaccard a b = jaccard b a := by
  simp only [jaccard]
  by_cases h1 : a.toFinset.card = 0 ∧ b.toFinset.card = 0
  · rw [if_pos h1, if_pos ⟨h1.2, h1.1⟩]
  · have h2 : ¬(b.toFinset.card = 0 ∧ a.toFinset.card = 0) := fun h => h1 ⟨h.2, h.1⟩
    rw [if_neg h1, if_neg h2,
      Finset.inter_comm b.toFinset a.toFinset, Nat.add_comm b.toFinset.card a.toFinset.card]

/-- For a similarity passing the `0.22` gate, two-decimal rounding keeps the
weight inside `[0.22, 1]`. -/
theorem round2_bounds {q : ℚ} (h1 : 22 / 100 ≤ q) (h2 : q ≤ 1) :
    22 / 100 ≤ round2 q ∧ round2 q ≤ 1 := by
  unfold round2
  have hlo : (22 : ℤ) ≤ ⌊q * 100 + 1 / 2⌋ := by
    rw [Int.le_floor]
    push_cast
    nlinarith
  have hhi : ⌊q * 100 + 1 / 2⌋ ≤ 100 := by
    have h3 : ⌊q * 100 + 1 / 2⌋ ≤ ⌊(100 : ℚ) + 1 / 2⌋ :=
      Int.floor_le_floor (by nlinarith)
    have h4 : ⌊(100 : ℚ) + 1 / 2⌋ = 100 := by norm_num
    omega
  constructor
  · have : (22 : ℚ) ≤ (⌊q * 100 + 1 / 2⌋ : ℚ) := by exact_mod_cast hlo
    linarith
  · have : ((⌊q * 100 + 1 / 2⌋ : ℤ) : ℚ) ≤ 100 := by exact_mod_cast hhi
    linarith

/-! ## Dependency-graph lemmas -/

/-- Membership in the raw (pre-dedup) dependency list. -/
theorem mem_buildDepsRaw {items : List SkillItem} {e : DepEdge} :
    e ∈ buildDepsRaw items ↔
      ∃ i j : Nat, ∃ a b : SkillItem, items[i]? = some a ∧ items[j]? = some b ∧ i ≠ j ∧
        (22 : ℚ) / 100 ≤ jaccard a.keywords b.keywords ∧
        e = ⟨a.id, b.id, round2 (jaccard a.keywords b.keywords)⟩ := by
  unfold buildDepsRaw
  rw [List.mem_flatten]
  constructor
  · rintro ⟨s, hs, hes⟩
    obtain ⟨⟨i, a⟩, hia, rfl⟩ := List.mem_map.mp hs
    obtain ⟨⟨j, b⟩, hjb, hg⟩ := List.mem_filterMap.mp hes
    rw [List.mem_enum_iff_getElem?] at hia hjb
    simp only at hg
    split_ifs at hg with hij hsc
    rw [Option.some.injEq] at hg
    exact ⟨i, j, a, b, hia, hjb, hij, hsc, hg.symm⟩
  · rintro ⟨i, j, a, b, hia, hjb, hij, hsc, rfl⟩
    refine ⟨items.enum.filterMap (fun b =>
        if i = b.1 then none
        else if (22 : ℚ) / 100 ≤ jaccard a.keywords b.2.keywords then
          some ⟨a.id, b.2.id, round2 (jaccard a.keywords b.2.keywords)⟩
        else none), ?_, ?_⟩
    · exact List.mem_map.mpr ⟨(i, a), List.mem_enum_iff_getElem?.mpr hia, rfl⟩
    · refine List.mem_filterMap.mpr ⟨(j, b), List.mem_enum_iff_getElem?.mpr hjb, ?_⟩
      simp only
      rw [if_neg hij, if_pos hsc]

theorem mem_upsert {d e : DepEdge} : ∀ acc : List DepEdge,
    e ∈ upsert d acc → e = d ∨ e ∈ acc := by
  intro acc
  induction acc with
  | nil => intro h; simpa [upsert] using h
  | cons x xs ih =>
      unfold upsert
      split
      · intro h
        rcases List.mem_cons.mp h with rfl | h2
        · exact Or.inl rfl
        · exact Or.inr (List.mem_cons_of_mem _ h2)
      · intro h
        rcases List.mem_cons.mp h with rfl | h2
        · exact Or.inr (List.mem_cons_self _ _)
        · rcases ih h2 with h3 | h3
          · exact Or.inl h3
          · exact Or.inr (List.mem_cons_of_mem _ h3)

theorem upsert_keys (d : DepEdge) : ∀ acc : List DepEdge,
    (upsert d acc).map depKey =
      if depKey d ∈ acc.map depKey then acc.map depKey
      else acc.map depKey ++ [depKey d] := by
  intro acc
  induction acc with
  | nil => simp [upsert]
  | cons x xs ih =>
      unfold upsert
      split
      · rename_i hk
        simp only [List.map_cons]
        rw [if_pos (List.mem_cons.mpr (Or.inl hk.symm))]
        simp [hk]
      · rename_i hk
        have hk2 : ¬(depKey d = depKey x) := fun h => hk h.symm
        simp only [List.map_cons]
        rw [ih]
        by_cases hm : depKey d ∈ xs.map depKey
        · rw [if_pos hm, if_pos (by simp [hm])]
        · rw [if_neg hm, if_neg (by simp [hm, hk2]), List.cons_append]

theorem depsFold_subset : ∀ (deps acc : List DepEdge) (e : DepEdge),
    e ∈ deps.foldl (fun a d => upsert d a) acc → e ∈ acc ∨ e ∈ deps := by
  intro deps
  induction deps with
  | nil => intro acc e h; exact Or.inl (by simpa using h)
  | cons d ds ih =>
      intro acc e h
      rw [List.foldl_cons] at h
      rcases ih (upsert d acc) e h with h2 | h2
      · rcases mem_upsert acc h2 with rfl | h3
        · exact Or.inr (List.mem_cons_self _ _)
        · exact Or.inl h3
      · exact Or.inr (List.mem_cons_of_mem _ h2)

theorem depsFold_keys_nodup : ∀ (deps acc : List DepEdge),
    (acc.map depKey).Nodup →
    ((deps.foldl (fun a d => upsert d a) acc).map depKey).Nodup := by
  intro deps
  induction deps with
  | nil => intro acc h; simpa using h
  | cons d ds ih =>
      intro acc h
      rw [List.foldl_cons]
      refine ih (upsert d acc) ?_
      rw [upsert_keys]
      split
      · exact h
      · rename_i hm
        simp [List.nodup_append, h, hm]

theorem depsFold_keys_mono : ∀ (deps acc : List DepEdge) (k : List Char),
    k ∈ acc.map depKey →
    k ∈ (deps.foldl (fun a d => upsert d a) acc).map depKey := by
  intro deps
  induction deps with
  | nil => intro acc k h; simpa using h
  | cons d ds ih =>
      intro acc k h
      rw [List.foldl_cons]
      refine ih (upsert d acc) k ?_
      rw [upsert_keys]
      split
      · exact h
      · exact List.mem_append_left _ h

theorem depsFold_key_cover : ∀ (deps acc : List DepEdge) (d : DepEdge), d ∈ deps →
    depKey d ∈ (deps.foldl (fun a x => upsert x a) acc).map depKey := by
  intro deps
  induction deps with
  | nil => intro acc d h; cases h
  | cons x xs ih =>
      intro acc d h
      rw [List.foldl_cons]
      rcases List.mem_cons.mp h with rfl | h2
      · refine depsFold_keys_mono xs (upsert d acc) (depKey d) ?_
        rw [upsert_keys]
        split
        · assumption
        · exact List.mem_append_right _ (by simp)
      · exact ih (upsert x acc) d h2

/-- Separator injectivity: when neither prefix contains `>`, splitting a
`Map` key `from ++ "->" ++ to` is unambiguous. -/
theorem append_sep_inj : ∀ {a c b d : List Char},
    ¬('>' ∈ a) → ¬('>' ∈ c) →
    a ++ '-' :: '>' :: b = c ++ '-' :: '>' :: d → a = c ∧ b = d := by
  intro a
  induction a with
  | nil =>
      intro c b d _ hc h
      cases c with
      | nil => simpa using h
      | cons x c2 =>
          simp only [List.nil_append, List.cons_append, List.cons.injEq] at h
          obtain ⟨hx, h2⟩ := h
          cases c2 with
          | nil =>
              simp only [List.nil_append, List.cons.injEq] at h2
              exact absurd h2.1 (by decide)
          | cons y c3 =>
              simp only [List.cons_append, List.cons.injEq] at h2
              exact absurd (List.mem_cons_of_mem x (h2.1 ▸ List.mem_cons_self y c3)) hc
  | cons x a2 ih =>
      intro c b d ha hc h
      cases c with
      | nil =>
          simp only [List.cons_append, List.nil_append, List.cons.injEq] at h
          obtain ⟨hx, h2⟩ := h
          cases a2 with
          | nil =>
              simp only [List.nil_append, List.cons.injEq] at h2
              exact absurd h2.1 (by decide)
          | cons y a3 =>
              simp only [List.cons_append, List.cons.injEq] at h2
              exact absurd (List.mem_cons_of_mem x (h2.1 ▸ List.mem_cons_self y a3)) ha
      | cons y c2 =>
          simp only [List.cons_append, List.cons.injEq] at h
          obtain ⟨hxy, h2⟩ := h
          have hrec := ih (fun hm => ha (List.mem_cons_of_mem x hm))
            (fun hm => hc (List.mem_cons_of_mem y hm)) h2
          exact ⟨by rw [hxy, hrec.1], hrec.2⟩

/-- With distinct ids, distinct index pairs give edges whose endpoints
differ. -/
theorem raw_edge_ends_ne {items : List SkillItem}
    (hids : (items.map SkillItem.id).Nodup)
    {i j : Nat} {a b : SkillItem} (hia : items[i]? = some a) (hjb : items[j]? = some b)
    (hij : i ≠ j) : a.id ≠ b.id := by
  intro hab
  have h1 : (items.map SkillItem.id)[i]? = some a.id := by
    rw [List.getElem?_map, hia]; rfl
  have h2 : (items.map SkillItem.id)[j]? = some b.id := by
    rw [List.getElem?_map, hjb]; rfl
  have hlen : i < (items.map SkillItem.id).length := by
    rcases List.getElem?_eq_some.mp h1 with ⟨h, _⟩
    exact h
  exact hij (List.getElem?_inj hlen hids (by rw [h1, h2, hab]))

/-- **C4.** With distinct item ids (as produced by `run`), every emitted
dependency edge carries the two items' Jaccard similarity rounded to two
decimals as its weight, that weight lies in `[0.22, 1]`, its endpoints
differ (no self-loops), and no two emitted edges share the same ordered
`(from, to)` pair. -/
theorem dependency_edge_bound (items : List SkillItem)
    (hids : (items.map SkillItem.id).Nodup) :
    (∀ e ∈ buildDependencies items,
        (∃ a ∈ items, ∃ b ∈ items,
            e.fromId = a.id ∧ e.toId = b.id ∧
              e.weight = round2 (jaccard a.keywords b.keywords)) ∧
          (22 : ℚ) / 100 ≤ e.weight ∧ e.weight ≤ 1 ∧ e.fromId ≠ e.toId) ∧
      (buildDependencies items).Pairwise
        (fun e1 e2 => ¬(e1.fromId = e2.fromId ∧ e1.toId = e2.toId)) := by
  constructor
  · intro e he
    have heraw : e ∈ buildDepsRaw items := by
      rcases depsFold_subset (buildDepsRaw items) [] e he with h | h
      · exact absurd h (List.not_mem_nil e)
      · exact h
    obtain ⟨i, j, a, b, hia, hjb, hij, hsc, rfl⟩ := mem_buildDepsRaw.mp heraw
    have ham : a ∈ items := List.getElem?_mem hia
    have hbm : b ∈ items := List.getElem?_mem hjb
    have hne : a.id ≠ b.id := raw_edge_ends_ne hids hia hjb hij
    exact ⟨⟨a, ham, b, hbm, rfl, rfl, rfl⟩,
      (round2_bounds hsc (jaccard_le_one _ _)).1,
      (round2_bounds hsc (jaccard_le_one _ _)).2, hne⟩
  · have hnodup : ((buildDependencies items).map depKey).Nodup :=
      depsFold_keys_nodup (buildDepsRaw items) [] (by simp)
    have hpw : (buildDependencies items).Pairwise (fun e1 e2 => depKey e1 ≠ depKey e2) :=
      List.pairwise_map.mp hnodup
    exact hpw.imp (fun h hpair => h (by simp [depKey, hpair.1, hpair.2]))

/-- Under distinct, `>`-free ids, raw edges are determined by their key. -/
theorem buildDepsRaw_key_unique {items : List SkillItem}
    (hids : (items.map SkillItem.id).Nodup)
    (hgt : ∀ it ∈ items, ¬('>' ∈ it.id)) :
    ∀ e1 ∈ buildDepsRaw items, ∀ e2 ∈ buildDepsRaw items,
      depKey e1 = depKey e2 → e1 = e2 := by
  intro e1 h1 e2 h2 hk
  obtain ⟨i1, j1, a1, b1, hia1, hjb1, hij1, hsc1, rfl⟩ := mem_buildDepsRaw.mp h1
  obtain ⟨i2, j2, a2, b2, hia2, hjb2, hij2, hsc2, rfl⟩ := mem_buildDepsRaw.mp h2
  have ha1 : a1 ∈ items := List.getElem?_mem hia1
  have ha2 : a2 ∈ items := List.getElem?_mem hia2
  have hb1 : b1 ∈ items := List.getElem?_mem hjb1
  have hb2 : b2 ∈ items := List.getElem?_mem hjb2
  unfold depKey at hk
  simp only at hk
  obtain ⟨hfrom, hto⟩ := append_sep_inj (hgt a1 ha1) (hgt a2 ha2) hk
  have haa : a1 = a2 := List.inj_on_of_nodup_map hids ha1 ha2 hfrom
  have hbb : b1 = b2 := List.inj_on_of_nodup_map hids hb1 hb2 hto
  rw [haa, hbb]

/-- Every raw edge survives deduplication verbatim when keys are unique. -/
theorem mem_buildDependencies_of_raw {items : List SkillItem}
    (hids : (items.map SkillItem.id).Nodup)
    (hgt : ∀ it ∈ items, ¬('>' ∈ it.id))
    {e : DepEdge} (he : e ∈ buildDepsRaw items) : e ∈ buildDependencies items := by
  have hkey : depKey e ∈ (buildDependencies items).map depKey :=
    depsFold_key_cover (buildDepsRaw items) [] e he
  obtain ⟨e2, he2, hke⟩ := List.mem_map.mp hkey
  have he2raw : e2 ∈ buildDepsRaw items := by
    rcases depsFold_subset (buildDepsRaw items) [] e2 he2 with h | h
    · exact absurd h (List.not_mem_nil e2)
    · exact h
  have : e2 = e := buildDepsRaw_key_unique hids hgt e2 he2raw e he hke
  exact this ▸ he2

/-- **C5.** With the distinct, `>`-free ids `run` generates, the dependency
graph is symmetric: an edge `(i→j)` is present exactly when `(j→i)` is, and
the reversed edge carries the same weight; moreover the weight of an edge
is determined by its `(from, to)` pair. -/
theorem dependency_edges_symmetric (items : List SkillItem)
    (hids : (items.map SkillItem.id).Nodup)
    (hgt : ∀ it ∈ items, ¬('>' ∈ it.id)) :
    (∀ e ∈ buildDependencies items,
        DepEdge.mk e.toId e.fromId e.weight ∈ buildDependencies items) ∧
      ∀ e1 ∈ buildDependencies items, ∀ e2 ∈ buildDependencies items,
        e1.fromId = e2.fromId → e1.toId = e2.toId → e1.weight = e2.weight := by
  constructor
  · intro e he
    have heraw : e ∈ buildDepsRaw items := by
      rcases depsFold_subset (buildDepsRaw items) [] e he with h | h
      · exact absurd h (List.not_mem_nil e)
      · exact h
    obtain ⟨i, j, a, b, hia, hjb, hij, hsc, rfl⟩ := mem_buildDepsRaw.mp heraw
    have hrevraw : DepEdge.mk b.id a.id (round2 (jaccard a.keywords b.keywords)) ∈
        buildDepsRaw items := by
      refine mem_buildDepsRaw.mpr ⟨j, i, b, a, hjb, hia, fun h => hij h.symm, ?_, ?_⟩
      · rw [jaccard_comm]; exact hsc
      · rw [jaccard_comm b.keywords a.keywords]
    exact mem_buildDependencies_of_raw hids hgt hrevraw
  · intro e1 he1 e2 he2 hfrom hto
    have h1raw : e1 ∈ buildDepsRaw items := by
      rcases depsFold_subset (buildDepsRaw items) [] e1 he1 with h | h
      · exact absurd h (List.not_mem_nil e1)
      · exact h
    have h2raw : e2 ∈ buildDepsRaw items := by
      rcases depsFold_subset (buildDepsRaw items) [] e2 he2 with h | h
      · exact absurd h (List.not_mem_nil e2)
      · exact h
    have : e1 = e2 :=
      buildDepsRaw_key_unique hids hgt e1 h1raw e2 h2raw (by simp [depKey, hfrom, hto])
    rw [this]

/-- Concrete two-item input for the dependency-graph witnesses. -/
def c45items : List SkillItem :=
  [ { id := ('s' :: 'k' :: 'i' :: 'l' :: 'l' :: '-' :: '0' :: '0' :: '1' :: [])
      title := [], trigger := [], content := []
      keywords := [['a', 'l', 'p', 'h', 'a'], ['b', 'e', 't', 'a']]
      steps := [], conditions := [], baseScore := 0 },
    { id := ('s' :: 'k' :: 'i' :: 'l' :: 'l' :: '-' :: '0' :: '0' :: '2' :: [])
      title := [], trigger := [], content := []
      keywords := [['a', 'l', 'p', 'h', 'a'], ['g', 'a', 'm', 'm', 'a']]
      steps := [], conditions := [], baseScore := 0 } ]

theorem dependency_edge_bound_witness :
    (c45items.map SkillItem.id).Nodup ∧
      ((∀ e ∈ buildDependencies c45items,
          (∃ a ∈ c45items, ∃ b ∈ c45items,
              e.fromId = a.id ∧ e.toId = b.id ∧
                e.weight = round2 (jaccard a.keywords b.keywords)) ∧
            (22 : ℚ) / 100 ≤ e.weight ∧ e.weight ≤ 1 ∧ e.fromId ≠ e.toId) ∧
        (buildDependencies c45items).Pairwise
          (fun e1 e2 => ¬(e1.fromId = e2.fromId ∧ e1.toId = e2.toId))) :=
  ⟨by decide, dependency_edge_bound c45items (by decide)⟩

theorem dependency_edges_symmetric_witness :
    (c45items.map SkillItem.id).Nodup ∧ (∀ it ∈ c45items, ¬('>' ∈ it.id)) ∧
      ((∀ e ∈ buildDependencies c45items,
          DepEdge.mk e.toId e.fromId e.weight ∈ buildDependencies c45items) ∧
        ∀ e1 ∈ buildDependencies c45items, ∀ e2 ∈ buildDependencies c45items,
          e1.fromId = e2.fromId → e1.toId = e2.toId → e1.weight = e2.weight) :=
  ⟨by decide, by decide, dependency_edges_symmetric c45items (by decide) (by decide)⟩

/-! ## minScore non-interference -/

/-- **C8.** The score cutoff (`minScore`) has no influence on the compiled
items or the dependency edges: any two cutoff values yield identical items
(hence identical ids, titles, triggers, contents, keywords, steps,
conditions and baseScores) and identical edges, and even identical
`skills/index.md` content apart from line 4, which is exactly the recorded
`Routing score cutoff: <minScore>` metadata line (the only other use of
the cutoff is the `minScore` field of `routes.json`, modelled by
`RunOutput.routesMinScore`). -/
theorem minScore_noninterference (text : List Char) (maxChunks : Nat) (lang : Lang)
    (s1 s2 : Int) :
    (compileRun text maxChunks lang s1).map (fun r => r.items) =
        (compileRun text maxChunks lang s2).map (fun r => r.items) ∧
      (compileRun text maxChunks lang s1).map (fun r => r.deps) =
        (compileRun text maxChunks lang s2).map (fun r => r.deps) ∧
      (compileRun text maxChunks lang s1).map (fun r => r.indexLines.eraseIdx 4) =
        (compileRun text maxChunks lang s2).map (fun r => r.indexLines.eraseIdx 4) ∧
      (compileRun text maxChunks lang s1).map (fun r => r.indexLines[4]?) =
        (compileRun text maxChunks lang s1).map
          (fun _ => some ("Routing score cutoff: ".toList ++ (toString s1).toList)) ∧
      (compileRun text maxChunks lang s1).map (fun r => r.routesMinScore) =
        (compileRun text maxChunks lang s1).map (fun _ => s1) := by
  rw [compileRun_eq text maxChunks lang s1, compileRun_eq text maxChunks lang s2]
  by_cases h1 : (normalizeText text).isEmpty
  · simp [h1, Except.map]
  · by_cases h2 : (pipelineChunks text maxChunks).isEmpty
    · simp [h1, h2, Except.map]
    · simp only [if_neg h1, if_neg h2, Except.map]
      refine ⟨trivial, trivial, ?_, ?_, trivial⟩
      · simp [buildIndexMdLines, indexHeaderLines, List.eraseIdx]
      · simp [buildIndexMdLines, indexHeaderLines]

/-! ## Error taxonomy -/

/-- When no trimmed paragraph reaches 40 non-space characters, no chunk
survives. -/
theorem pipelineChunks_eq_nil_of_short {text : List Char} {mc : Nat}
    (hall : ∀ p ∈ (splitBl (normalizeText text)).map jsTrim, strippedLen p < 40) :
    pipelineChunks text mc = [] := by
  have hblocks : splitSemanticBlocks (normalizeText text) = [] := by
    unfold splitSemanticBlocks
    rw [List.filter_eq_nil_iff]
    intro a ha
    have ha2 : a ∈ (splitBl (normalizeText text)).map jsTrim := (List.mem_filter.mp ha).1
    have := hall a ha2
    simp only [decide_eq_true_eq]
    omega
  unfold pipelineChunks
  have hcb : chunkBlocks [] mc = [] := by
    unfold chunkBlocks
    have hraw : rawChunks ([] : List (List Char)) = [] := rfl
    rw [hraw]
    simp
  rw [hblocks, hcb]
  rfl

/-- **C7.** `compileRun` fails exactly when the normalized input is empty
or no chunk survives the length filters; the empty-input check runs first,
so `emptyExtraction` is reported precisely on empty normalized text and
`noSemanticContent` precisely on non-empty normalized text with no
surviving chunk.  In particular a non-empty input none of whose trimmed
blank-line-separated paragraphs reaches 40 non-space characters fails with
`noSemanticContent`. -/
theorem pipeline_error_taxonomy (text : List Char) (maxChunks : Nat) (lang : Lang)
    (minScore : Int) :
    ((∃ err, compileRun text maxChunks lang minScore = .error err) ↔
        (normalizeText text = [] ∨ pipelineChunks text maxChunks = [])) ∧
      (compileRun text maxChunks lang minScore = .error .emptyExtraction ↔
        normalizeText text = []) ∧
      (compileRun text maxChunks lang minScore = .error .noSemanticContent ↔
        (normalizeText text ≠ [] ∧ pipelineChunks text maxChunks = [])) ∧
      (normalizeText text ≠ [] →
        (∀ p ∈ (splitBl (normalizeText text)).map jsTrim, strippedLen p < 40) →
        compileRun text maxChunks lang minScore = .error .noSemanticContent) := by
  rw [compileRun_eq]
  by_cases h1 : (normalizeText text).isEmpty
  · have e1 : normalizeText text = [] := List.isEmpty_iff.mp h1
    rw [if_pos h1]
    refine ⟨⟨fun _ => Or.inl e1, fun _ => ⟨_, rfl⟩⟩, by simp [e1], ?_, ?_⟩
    · constructor
      · intro h
        simp at h
      · rintro ⟨hne, _⟩
        exact absurd e1 hne
    · intro hne _
      exact absurd e1 hne
  · have e1 : normalizeText text ≠ [] := fun h => h1 (List.isEmpty_iff.mpr h)
    rw [if_neg h1]
    by_cases h2 : (pipelineChunks text maxChunks).isEmpty
    · have e2 : pipelineChunks text maxChunks = [] := List.isEmpty_iff.mp h2
      rw [if_pos h2]
      refine ⟨⟨fun _ => Or.inr e2, fun _ => ⟨_, rfl⟩⟩, ?_, ⟨fun _ => ⟨e1, e2⟩, fun _ => rfl⟩,
        fun _ _ => rfl⟩
      constructor
      · intro h
        simp at h
      · intro h
        exact absurd h e1
    · have e2 : pipelineChunks text maxChunks ≠ [] := fun h => h2 (List.isEmpty_iff.mpr h)
      rw [if_neg h2]
      refine ⟨?_, ?_, ?_, ?_⟩
      · constructor
        · rintro ⟨err, herr⟩
          simp at herr
        · rintro (h | h)
          · exact absurd h e1
          · exact absurd h e2
      · constructor
        · intro h
          simp at h
        · intro h
          exact absurd h e1
      · constructor
        · intro h
          simp at h
        · rintro ⟨_, h⟩
          exact absurd h e2
      · intro _ hall
        exact absurd (pipelineChunks_eq_nil_of_short hall) e2

/-- Concrete non-empty input whose only paragraph stays under 40 non-space
characters. -/
def c7doc : List Char :=
  ['s', 'h', 'o', 'r', 't', ' ', 't', 'e', 'x', 't']

theorem pipeline_error_taxonomy_witness :
    normalizeText c7doc ≠ [] ∧
      (∀ p ∈ (splitBl (normalizeText c7doc)).map jsTrim, strippedLen p < 40) ∧
      compileRun c7doc 24 Lang.auto 55 = .error .noSemanticContent :=
  ⟨by decide, by decide,
    (pipeline_error_taxonomy c7doc 24 Lang.auto 55).2.2.2 (by decide) (by decide)⟩

/-! ## Two-paragraph chunking -/

theorem joinBlankLine_singleton (p : List Char) : joinBlankLine [p] = p := by
  simp [joinBlankLine, List.intercalate]

theorem joinBlankLine_pair (p1 p2 : List Char) :
    joinBlankLine [p1, p2] = p1 ++ '\n' :: '\n' :: p2 := by
  simp [joinBlankLine, List.intercalate]

/-- `chunkBlocks` on exactly two blocks: they are split exactly when adding
the second would pass 280 words or the first already reaches 140. -/
theorem chunkBlocks_two (p1 p2 : List Char) (mc : Nat) (hmc : 2 ≤ mc) :
    chunkBlocks [p1, p2] mc =
      if 280 < countWords p1 + countWords p2 ∨ 140 ≤ countWords p1 then [p1, p2]
      else [p1 ++ '\n' :: '\n' :: p2] := by
  have step0 : rawChunks [p1, p2] = chunkLoop [p2] [p1] (countWords p1) := by
    unfold rawChunks
    simp only [chunkLoop]
    rw [if_neg (by simp)]
    simp
  by_cases hc : 280 < countWords p1 + countWords p2 ∨ 140 ≤ countWords p1
  · have hraw : rawChunks [p1, p2] = [p1, p2] := by
      rw [step0]
      simp only [chunkLoop]
      rw [if_pos ⟨by simp, hc⟩]
      rw [if_neg (by simp)]
      rw [joinBlankLine_singleton, joinBlankLine_singleton]
    simp only [chunkBlocks]
    rw [hraw]
    rw [if_pos (show ([p1, p2] : List (List Char)).length ≤ mc by simpa using hmc)]
    rw [if_pos hc]
  · have hraw : rawChunks [p1, p2] = [p1 ++ '\n' :: '\n' :: p2] := by
      rw [step0]
      simp only [chunkLoop]
      rw [if_neg (fun h => hc h.2)]
      rw [if_neg (by simp)]
      rw [List.singleton_append, joinBlankLine_pair]
    simp only [chunkBlocks]
    rw [hraw]
    rw [if_pos (show ([p1 ++ '\n' :: '\n' :: p2] : List (List Char)).length ≤ mc by
      simp; omega)]
    rw [if_neg hc]

theorem strippedLen_blankjoin (p1 p2 : List Char) :
    strippedLen (p1 ++ '\n' :: '\n' :: p2) = strippedLen p1 + strippedLen p2 := by
  have h2 : (('\n' :: '\n' :: p2).filter (fun c => !(isJsSpace c))) =
      p2.filter (fun c => !(isJsSpace c)) := by
    rw [List.filter_cons_of_neg (by decide), List.filter_cons_of_neg (by decide)]
  unfold strippedLen
  rw [List.filter_append, h2, List.length_append]

theorem buildIndexMdLines_length (items : List SkillItem) (s : Int) :
    (buildIndexMdLines items s).length = 8 + items.length := by
  simp [buildIndexMdLines, indexHeaderLines]
  omega

theorem splitSemanticBlocks_nil : splitSemanticBlocks [] = [] := rfl

/-- **C1 (amended).** For an input whose semantic segmentation yields
exactly two paragraphs, each with more than 80 non-space characters,
compiled with `chunkCeiling = 24`: the pipeline produces exactly 1 chunk
when the combined word count is at most 280 AND the first paragraph has
fewer than 140 words, and exactly 2 chunks otherwise, and
`skills/index.md` has exactly one table row per chunk (8 header lines plus
one row per item).  (The original claim promised 1 chunk whenever the
combined count is ≤ 280; the 140-word accumulator rule refutes that, see
the counterexample.) -/
theorem two_paragraph_chunk_count (text p1 p2 : List Char) (lang : Lang) (minScore : Int)
    (hsplit : splitSemanticBlocks (normalizeText text) = [p1, p2])
    (h1 : 80 < strippedLen p1) (h2 : 80 < strippedLen p2) :
    ∃ r, compileRun text 24 lang minScore = .ok r ∧
      r.items.length =
        (if countWords p1 + countWords p2 ≤ 280 ∧ countWords p1 < 140 then 1 else 2) ∧
      r.indexLines.length = 8 + r.items.length := by
  have hchunks : pipelineChunks text 24 =
      if 280 < countWords p1 + countWords p2 ∨ 140 ≤ countWords p1 then [p1, p2]
      else [p1 ++ '\n' :: '\n' :: p2] := by
    unfold pipelineChunks
    rw [hsplit, chunkBlocks_two p1 p2 24 (by omega)]
    by_cases hc : 280 < countWords p1 + countWords p2 ∨ 140 ≤ countWords p1
    · rw [if_pos hc]
      rw [List.filter_cons_of_pos (by simpa using h1),
        List.filter_cons_of_pos (by simpa using h2)]
      rfl
    · rw [if_neg hc]
      rw [List.filter_cons_of_pos (by simp [strippedLen_blankjoin]; omega)]
      rfl
  have hne : ¬(normalizeText text).isEmpty := by
    intro h
    rw [List.isEmpty_iff.mp h, splitSemanticBlocks_nil] at hsplit
    exact absurd hsplit (by simp)
  have hcne : ¬(pipelineChunks text 24).isEmpty := by
    rw [hchunks]
    split <;> simp
  obtain ⟨r, hr⟩ : ∃ r, compileRun text 24 lang minScore = .ok r := by
    rw [compileRun_eq, if_neg hne, if_neg hcne]
    exact ⟨_, rfl⟩
  obtain ⟨hi, hd, hl, hs⟩ := compileRun_ok_items hr
  refine ⟨r, hr, ?_, ?_⟩
  · rw [hi]
    unfold skillItems
    rw [List.length_map, List.enum_length, hchunks]
    by_cases hc : 280 < countWords p1 + countWords p2 ∨ 140 ≤ countWords p1
    · rw [if_pos hc, if_neg (by omega)]
      rfl
    · rw [if_neg hc, if_pos (by omega)]
      rfl
  · rw [hl, hi, buildIndexMdLines_length]

/-- 140 one-letter words: at least 50 non-space characters, 140 words. -/
def c1p1 : List Char := List.intercalate [' '] (List.replicate 140 ['a'])

/-- One 81-character word. -/
def c1p2 : List Char := List.replicate 81 'b'

def c1doc : List Char := c1p1 ++ '\n' :: '\n' :: c1p2

set_option maxHeartbeats 4000000 in
/-- **C1 (counterexample).** Two blank-line-separated paragraphs of 50+
non-space characters each, combined word count 141 ≤ 280, compiled with
`chunkCeiling = 24`, yield 2 chunks, not the single chunk the claim
promises: the accumulator also closes when the first paragraph already
holds at least 140 words. -/
theorem two_paragraph_chunk_claim_false :
    splitSemanticBlocks (normalizeText c1doc) = [c1p1, c1p2] ∧
      50 ≤ strippedLen c1p1 ∧ 50 ≤ strippedLen c1p2 ∧
      countWords c1p1 + countWords c1p2 ≤ 280 ∧
      (pipelineChunks c1doc 24).length ≠ 1 ∧
      (pipelineChunks c1doc 24).length = 2 :=
  ⟨by decide, by decide, by decide, by decide, by decide, by decide⟩

def c1wp1 : List Char := List.replicate 100 'a'

def c1wp2 : List Char := List.replicate 100 'b'

def c1wdoc : List Char := c1wp1 ++ '\n' :: '\n' :: c1wp2

set_option maxHeartbeats 4000000 in
theorem two_paragraph_chunk_count_witness :
    splitSemanticBlocks (normalizeText c1wdoc) = [c1wp1, c1wp2] ∧
      80 < strippedLen c1wp1 ∧ 80 < strippedLen c1wp2 ∧
      ∃ r, compileRun c1wdoc 24 Lang.auto 55 = .ok r ∧
        r.items.length =
          (if countWords c1wp1 + countWords c1wp2 ≤ 280 ∧ countWords c1wp1 < 140
            then 1 else 2) ∧
        r.indexLines.length = 8 + r.items.length :=
  ⟨by decide, by decide, by decide,
    two_paragraph_chunk_count c1wdoc c1wp1 c1wp2 Lang.auto 55 (by decide) (by decide)
      (by decide)⟩

/-- A 150-word block: enough to close the accumulator at every block
boundary, so five copies give five raw chunks. -/
def c6p : List Char := List.intercalate [' '] (List.replicate 150 ['a'])

def c6blocks : List (List Char) := List.replicate 5 c6p

theorem chunkBlocks_ceiling_witness :
    0 < 2 ∧
      ((chunkBlocks c6blocks 2).length ≤ 2 ∧
        (2 < (rawChunks c6blocks).length →
          (groupJoin (ceilRatio (rawChunks c6blocks).length 2)
              (rawChunks c6blocks)).length ≤ 2 ∧
          chunkBlocks c6blocks 2 =
            groupJoin (ceilRatio (rawChunks c6blocks).length 2) (rawChunks c6blocks))) :=
  ⟨by decide, chunkBlocks_ceiling c6blocks 2 (by decide)⟩

/-! ## Step extraction: the first-eight rule -/

/-- **C9 (amended).** The step extractor keeps at most 8 steps, each a
matched line remainder of more than 4 characters, and the scenario of the
claim holds under the proviso the original text omits: a chunk containing
the line `"1. Open the valve"` yields `"Open the valve"` among its steps
PROVIDED fewer than 8 qualifying candidates come from earlier lines (the
unconditional scenario fails, see the counterexample: the `slice(0, 8)`
cut can drop it). -/
theorem extractSteps_first_eight (text : List Char) (pre post : List (List Char))
    (hsplit : splitLines text = pre ++ String.toList "1. Open the valve" :: post)
    (hpre : ((pre.filterMap lineStep).filter
      (fun v => !v.isEmpty && decide (4 < v.length))).length < 8) :
    String.toList "Open the valve" ∈ extractSteps text ∧
      (extractSteps text).length ≤ 8 ∧
      ∀ v ∈ extractSteps text,
        4 < v.length ∧ ∃ line ∈ splitLines text, lineStep line = some v := by
  have hline : lineStep (String.toList "1. Open the valve") =
      some (String.toList "Open the valve") := by decide
  have hcand : (splitLines text).filterMap lineStep =
      pre.filterMap lineStep ++
        String.toList "Open the valve" :: post.filterMap lineStep := by
    rw [hsplit, List.filterMap_append, List.filterMap_cons_some hline]
  have hfilter : ((splitLines text).filterMap lineStep).filter
      (fun v => !v.isEmpty && decide (4 < v.length)) =
      ((pre.filterMap lineStep).filter (fun v => !v.isEmpty && decide (4 < v.length))) ++
        String.toList "Open the valve" ::
          ((post.filterMap lineStep).filter
            (fun v => !v.isEmpty && decide (4 < v.length))) := by
    rw [hcand, List.filter_append, List.filter_cons_of_pos (by decide)]
  refine ⟨?_, ?_, ?_⟩
  · unfold extractSteps
    rw [hfilter, List.take_append_eq_append_take]
    refine List.mem_append.mpr (Or.inr ?_)
    obtain ⟨m, hm⟩ : ∃ m,
        8 - (((pre.filterMap lineStep).filter
          (fun v => !v.isEmpty && decide (4 < v.length))).length) = m + 1 :=
      ⟨7 - (((pre.filterMap lineStep).filter
          (fun v => !v.isEmpty && decide (4 < v.length))).length), by omega⟩
    rw [hm, List.take_succ_cons]
    exact List.mem_cons_self _ _
  · unfold extractSteps
    rw [List.length_take]
    exact min_le_left _ _
  · intro v hv
    unfold extractSteps at hv
    have hv1 := List.mem_of_mem_take hv
    rw [List.mem_filter] at hv1
    obtain ⟨hv2, hv3⟩ := hv1
    rw [List.mem_filterMap] at hv2
    obtain ⟨line, hl1, hl2⟩ := hv2
    refine ⟨?_, line, hl1, hl2⟩
    simp only [Bool.and_eq_true, decide_eq_true_eq] at hv3
    exact hv3.2

/-- Eight qualifying numbered lines, then the line of the scenario. -/
def c9doc : List Char :=
  String.toList
    "1. aaaaaa\n2. aaaaaa\n3. aaaaaa\n4. aaaaaa\n5. aaaaaa\n6. aaaaaa\n7. aaaaaa\n8. aaaaaa\n1. Open the valve"

/-- **C9 (counterexample).** A chunk containing the line
`"1. Open the valve"` whose steps do NOT contain `"Open the valve"`: eight
earlier qualifying lines fill the 8-slot budget first. -/
theorem step_scenario_unconditional_false :
    String.toList "1. Open the valve" ∈ splitLines c9doc ∧
      String.toList "Open the valve" ∉ extractSteps c9doc ∧
      (extractSteps c9doc).length = 8 :=
  ⟨by decide, by decide, by decide⟩

def c9wpre : List (List Char) := [String.toList "intro"]

def c9wdoc : List Char := String.toList "intro\n1. Open the valve"

theorem extractSteps_first_eight_witness :
    splitLines c9wdoc = c9wpre ++ String.toList "1. Open the valve" :: [] ∧
      ((c9wpre.filterMap lineStep).filter
        (fun v => !v.isEmpty && decide (4 < v.length))).length < 8 ∧
      (String.toList "Open the valve" ∈ extractSteps c9wdoc ∧
        (extractSteps c9wdoc).length ≤ 8 ∧
        ∀ v ∈ extractSteps c9wdoc,
          4 < v.length ∧ ∃ line ∈ splitLines c9wdoc, lineStep line = some v) :=
  ⟨by decide, by decide,
    extractSteps_first_eight c9wdoc c9wpre [] (by decide) (by decide)⟩

/-! ## Idempotence of normalizeText -/

/-- No two adjacent characters of the space-collapsing class. -/
def spR (a b : Char) : Prop := isSpaceNB a = false ∨ isSpaceNB b = false

/-- Every `\n` run, counted from a run already `k` long, stays within 2. -/
def nlOk : Nat → List Char → Bool
  | _, [] => true
  | k, c :: rest =>
      if c = '\n' then decide (k + 1 ≤ 2) && nlOk (k + 1) rest else nlOk 0 rest

/-- Right trim; `jsTrim l = trimR (l.dropWhile isJsSpace)` definitionally. -/
def trimR (l : List Char) : List Char := (l.reverse.dropWhile isJsSpace).reverse

theorem mem_collapseRunsAux {p : Char → Bool} {rep : Char} :
    ∀ (l : List Char) (b : Bool) (c : Char), c ∈ collapseRunsAux p rep b l →
      c = rep ∨ (c ∈ l ∧ p c = false) := by
  intro l
  induction l with
  | nil => intro b c h; simp [collapseRunsAux] at h
  | cons d rest ih =>
      intro b c h
      simp only [collapseRunsAux] at h
      by_cases hp : p d = true
      · rw [if_pos hp] at h
        rcases List.mem_append.mp h with h1 | h1
        · left
          cases b
          · simpa using h1
          · simp at h1
        · rcases ih true c h1 with h2 | h2
          · exact Or.inl h2
          · exact Or.inr ⟨List.mem_cons_of_mem d h2.1, h2.2⟩
      · rw [if_neg hp] at h
        rcases List.mem_cons.mp h with h1 | h1
        · subst h1
          exact Or.inr ⟨List.mem_cons_self c rest, by simpa using hp⟩
        · rcases ih false c h1 with h2 | h2
          · exact Or.inl h2
          · exact Or.inr ⟨List.mem_cons_of_mem d h2.1, h2.2⟩

theorem mem_collapseNLAux :
    ∀ (l : List Char) (k : Nat) (c : Char), c ∈ collapseNLAux k l → c ∈ l := by
  intro l
  induction l with
  | nil => intro k c h; simp [collapseNLAux] at h
  | cons d rest ih =>
      intro k c h
      simp only [collapseNLAux] at h
      by_cases hd : d = '\n'
      · rw [if_pos hd] at h
        rcases List.mem_append.mp h with h1 | h1
        · by_cases hk : k < 2
          · rw [if_pos hk] at h1
            simp at h1
            subst h1
            exact hd ▸ List.mem_cons_self d rest
          · rw [if_neg hk] at h1
            simp at h1
        · exact List.mem_cons_of_mem d (ih (k + 1) c h1)
      · rw [if_neg hd] at h
        rcases List.mem_cons.mp h with h1 | h1
        · exact h1 ▸ List.mem_cons_self d rest
        · exact List.mem_cons_of_mem d (ih 0 c h1)

theorem jsTrim_within (l : List Char) : jsTrim l <:+: l := by
  have h2 : (l.dropWhile isJsSpace).reverse.dropWhile isJsSpace <:+
      (l.dropWhile isJsSpace).reverse := List.dropWhile_suffix isJsSpace
  have h3 := List.reverse_prefix.mpr h2
  rw [List.reverse_reverse] at h3
  exact h3.isInfix.trans (List.dropWhile_suffix isJsSpace).isInfix

theorem nlOk_mono : ∀ (l : List Char) (k j : Nat), j ≤ k → nlOk k l = true →
    nlOk j l = true := by
  intro l
  induction l with
  | nil => intro k j _ _; rfl
  | cons c rest ih =>
      intro k j hjk h
      simp only [nlOk] at h ⊢
      by_cases hc : c = '\n'
      · rw [if_pos hc] at h ⊢
        rw [Bool.and_eq_true] at h
        obtain ⟨h1, h2⟩ := h
        rw [Bool.and_eq_true]
        refine ⟨by simp; simp at h1; omega, ih (k + 1) (j + 1) (by omega) h2⟩
      · rw [if_neg hc] at h ⊢
        exact h

theorem nlOk_append_left : ∀ (t u : List Char) (k : Nat), nlOk k (t ++ u) = true →
    nlOk k t = true := by
  intro t
  induction t with
  | nil => intro u k _; rfl
  | cons c rest ih =>
      intro u k h
      rw [List.cons_append] at h
      simp only [nlOk] at h ⊢
      by_cases hc : c = '\n'
      · rw [if_pos hc] at h ⊢
        rw [Bool.and_eq_true] at h
        rw [Bool.and_eq_true]
        exact ⟨h.1, ih u (k + 1) h.2⟩
      · rw [if_neg hc] at h ⊢
        exact ih u 0 h

theorem nlOk_append_right : ∀ (s t : List Char), nlOk 0 (s ++ t) = true →
    nlOk 0 t = true := by
  intro s
  induction s with
  | nil => intro t h; exact h
  | cons c rest ih =>
      intro t h
      rw [List.cons_append] at h
      simp only [nlOk] at h
      by_cases hc : c = '\n'
      · rw [if_pos hc] at h
        rw [Bool.and_eq_true] at h
        exact ih t (nlOk_mono (rest ++ t) 1 0 (by omega) h.2)
      · rw [if_neg hc] at h
        exact ih t h

theorem nlOk_within {t l : List Char} (h : t <:+: l) (hl : nlOk 0 l = true) :
    nlOk 0 t = true := by
  obtain ⟨s, u, rfl⟩ := h
  rw [List.append_assoc] at hl
  exact nlOk_append_left t u 0 (nlOk_append_right s (t ++ u) hl)

theorem collapseNLAux_id : ∀ (l : List Char) (k : Nat), nlOk k l = true →
    collapseNLAux k l = l := by
  intro l
  induction l with
  | nil => intro k _; rfl
  | cons c rest ih =>
      intro k h
      simp only [nlOk] at h
      simp only [collapseNLAux]
      by_cases hc : c = '\n'
      · rw [if_pos hc] at h ⊢
        rw [Bool.and_eq_true] at h
        obtain ⟨h1, h2⟩ := h
        have hk : k < 2 := by simp at h1; omega
        rw [if_pos hk, ih (k + 1) h2, List.singleton_append, hc]
      · rw [if_neg hc] at h ⊢
        rw [ih 0 h]

theorem nlOk_collapseNLAux : ∀ (l : List Char) (k : Nat),
    nlOk (min k 2) (collapseNLAux k l) = true := by
  intro l
  induction l with
  | nil => intro k; rfl
  | cons c rest ih =>
      intro k
      simp only [collapseNLAux]
      by_cases hc : c = '\n'
      · rw [if_pos hc]
        by_cases hk : k < 2
        · rw [if_pos hk, List.singleton_append]
          simp only [nlOk, eq_self_iff_true, if_true, Bool.and_eq_true]
          constructor
          · simp
            omega
          · have := ih (k + 1)
            rwa [show min (k + 1) 2 = min k 2 + 1 by omega] at this
        · rw [if_neg hk, List.nil_append]
          have := ih (k + 1)
          rwa [show min (k + 1) 2 = min k 2 by omega] at this
      · rw [if_neg hc]
        simp only [nlOk, if_neg hc]
        have := ih 0
        rwa [show min 0 2 = 0 from rfl] at this

theorem headNL0 (l : List Char) (hd : Char)
    (h : (collapseNLAux 0 l).head? = some hd) : hd = '\n' ∨ l.head? = some hd := by
  cases l with
  | nil => simp [collapseNLAux] at h
  | cons c rest =>
      simp only [collapseNLAux] at h
      by_cases hc : c = '\n'
      · rw [if_pos hc, if_pos (by omega : (0 : Nat) < 2), List.singleton_append,
          List.head?_cons] at h
        exact Or.inl (by injection h with h2; exact h2.symm)
      · rw [if_neg hc, List.head?_cons] at h
        exact Or.inr h

theorem collapseNLAux_chain : ∀ (l : List Char) (k : Nat), l.Chain' spR →
    (collapseNLAux k l).Chain' spR := by
  intro l
  induction l with
  | nil => intro k _; exact List.chain'_nil
  | cons c rest ih =>
      intro k h
      obtain ⟨hhd, htl⟩ := List.chain'_cons'.mp h
      simp only [collapseNLAux]
      by_cases hc : c = '\n'
      · rw [if_pos hc]
        by_cases hk : k < 2
        · rw [if_pos hk, List.singleton_append]
          refine List.chain'_cons'.mpr ⟨fun y _ => Or.inl (by decide), ih (k + 1) htl⟩
        · rw [if_neg hk, List.nil_append]
          exact ih (k + 1) htl
      · rw [if_neg hc]
        refine List.chain'_cons'.mpr ⟨?_, ih 0 htl⟩
        intro y hy
        rcases headNL0 rest y hy with h1 | h1
        · exact Or.inr (by rw [h1]; decide)
        · exact hhd y h1

theorem collapseRunsAux_chain :
    ∀ l : List Char,
      (∀ b : Bool, (collapseRunsAux isSpaceNB ' ' b l).Chain' spR) ∧
        ∀ hd, (collapseRunsAux isSpaceNB ' ' true l).head? = some hd →
          isSpaceNB hd = false := by
  intro l
  induction l with
  | nil =>
      refine ⟨fun b => ?_, fun hd h => by simp [collapseRunsAux] at h⟩
      cases b <;> exact List.chain'_nil
  | cons c rest ih =>
      obtain ⟨ihc, ihh⟩ := ih
      by_cases hp : isSpaceNB c = true
      · have hcons : (' ' :: collapseRunsAux isSpaceNB ' ' true rest).Chain' spR :=
          List.chain'_cons'.mpr ⟨fun y hy => Or.inr (ihh y hy), ihc true⟩
        constructor
        · intro b
          simp only [collapseRunsAux]
          rw [if_pos hp]
          cases b
          · simpa using hcons
          · simpa using ihc true
        · intro hd h
          simp only [collapseRunsAux] at h
          rw [if_pos hp] at h
          simp only [eq_self_iff_true, if_true, List.nil_append] at h
          exact ihh hd h
      · constructor
        · intro b
          simp only [collapseRunsAux]
          rw [if_neg hp]
          exact List.chain'_cons'.mpr ⟨fun y hy => Or.inl (by simpa using hp), ihc false⟩
        · intro hd h
          simp only [collapseRunsAux] at h
          rw [if_neg hp, List.head?_cons] at h
          injection h with h2
          rw [← h2]
          simpa using hp

theorem collapseRunsAux_skip (l : List Char)
    (h : ∀ hd, l.head? = some hd → isSpaceNB hd = false) :
    collapseRunsAux isSpaceNB ' ' true l = collapseRunsAux isSpaceNB ' ' false l := by
  cases l with
  | nil => rfl
  | cons c rest =>
      have hc := h c rfl
      simp only [collapseRunsAux]
      rw [if_neg (by simp [hc]), if_neg (by simp [hc])]

theorem collapseRunsAux_id : ∀ l : List Char,
    (∀ c ∈ l, isSpaceNB c = true → c = ' ') → l.Chain' spR →
    collapseRunsAux isSpaceNB ' ' false l = l := by
  intro l
  induction l with
  | nil => intro _ _; rfl
  | cons c rest ih =>
      intro hmem hch
      obtain ⟨hhd, htl⟩ := List.chain'_cons'.mp hch
      have ihr : collapseRunsAux isSpaceNB ' ' false rest = rest :=
        ih (fun d hd hsp => hmem d (List.mem_cons_of_mem c hd) hsp) htl
      simp only [collapseRunsAux]
      by_cases hp : isSpaceNB c = true
      · rw [if_pos hp]
        have hskip : collapseRunsAux isSpaceNB ' ' true rest =
            collapseRunsAux isSpaceNB ' ' false rest := by
          refine collapseRunsAux_skip rest ?_
          intro hd hh
          rcases hhd hd hh with h1 | h1
          · rw [hp] at h1
            cases h1
          · exact h1
        rw [if_neg (by simp), List.singleton_append, hskip, ihr,
          hmem c (List.mem_cons_self c rest) hp]
      · rw [if_neg hp, ihr]

theorem dropWhile_idem (p : Char → Bool) (l : List Char) :
    (l.dropWhile p).dropWhile p = l.dropWhile p := by
  have h := List.head?_dropWhile_not p l
  cases hd : l.dropWhile p with
  | nil => rfl
  | cons c r =>
      rw [hd] at h
      have h2 : p c = false := h
      exact List.dropWhile_cons_of_neg (by simp [h2])

theorem trimR_prefix (x : List Char) : trimR x <+: x := by
  have h2 : x.reverse.dropWhile isJsSpace <:+ x.reverse := List.dropWhile_suffix isJsSpace
  have h3 := List.reverse_prefix.mpr h2
  rwa [List.reverse_reverse] at h3

theorem trimR_idem (x : List Char) : trimR (trimR x) = trimR x := by
  show ((x.reverse.dropWhile isJsSpace).reverse.reverse.dropWhile isJsSpace).reverse =
    (x.reverse.dropWhile isJsSpace).reverse
  rw [List.reverse_reverse, dropWhile_idem]

theorem dropWhile_trimR (x : List Char) :
    (trimR (x.dropWhile isJsSpace)).dropWhile isJsSpace =
      trimR (x.dropWhile isJsSpace) := by
  cases hd : trimR (x.dropWhile isJsSpace) with
  | nil => rfl
  | cons c r =>
      have hpre : trimR (x.dropWhile isJsSpace) <+: x.dropWhile isJsSpace := trimR_prefix _
      rw [hd] at hpre
      obtain ⟨t, ht⟩ := hpre
      have h := List.head?_dropWhile_not isJsSpace x
      have h2 : (x.dropWhile isJsSpace).head? = some c := by
        rw [← ht, List.cons_append, List.head?_cons]
      rw [h2] at h
      have h3 : isJsSpace c = false := h
      exact List.dropWhile_cons_of_neg (by simp [h3])

theorem jsTrim_idem (l : List Char) : jsTrim (jsTrim l) = jsTrim l := by
  show trimR ((trimR (l.dropWhile isJsSpace)).dropWhile isJsSpace) =
    trimR (l.dropWhile isJsSpace)
  rw [dropWhile_trimR, trimR_idem]

theorem tabsToSpaces_no_tab (l : List Char) : '\t' ∉ tabsToSpaces l := by
  intro h
  obtain ⟨d, _, hd⟩ := List.mem_map.mp h
  by_cases h2 : d = '\t'
  · rw [if_pos h2] at hd
    cases hd
  · rw [if_neg h2] at hd
    exact h2 hd

theorem mem_tabsToSpaces {c : Char} {l : List Char} (h : c ∈ tabsToSpaces l) :
    c = ' ' ∨ c ∈ l := by
  obtain ⟨d, hdl, hd⟩ := List.mem_map.mp h
  by_cases h2 : d = '\t'
  · rw [if_pos h2] at hd
    exact Or.inl hd.symm
  · rw [if_neg h2] at hd
    exact Or.inr (hd ▸ hdl)

theorem removeCR_no_cr (l : List Char) : '\r' ∉ removeCR l := by
  intro h
  have := (List.mem_filter.mp h).2
  simp at this

theorem mem_normalizeText_cases {c : Char} {l : List Char} (h : c ∈ normalizeText l) :
    c = ' ' ∨ (c ∈ tabsToSpaces (removeCR l) ∧ isSpaceNB c = false) := by
  have h1 : c ∈ collapseNL (collapseRuns isSpaceNB ' ' (tabsToSpaces (removeCR l))) :=
    (jsTrim_within _).subset h
  have h2 : c ∈ collapseRuns isSpaceNB ' ' (tabsToSpaces (removeCR l)) :=
    mem_collapseNLAux _ 0 c h1
  exact mem_collapseRunsAux _ false c h2

theorem normalizeText_no_cr (l : List Char) : '\r' ∉ normalizeText l := by
  intro h
  rcases mem_normalizeText_cases h with h1 | h1
  · cases h1
  · rcases mem_tabsToSpaces h1.1 with h2 | h2
    · cases h2
    · exact removeCR_no_cr l h2

theorem normalizeText_no_tab (l : List Char) : '\t' ∉ normalizeText l := by
  intro h
  rcases mem_normalizeText_cases h with h1 | h1
  · cases h1
  · exact tabsToSpaces_no_tab (removeCR l) h1.1

theorem normalizeText_space_inv (l : List Char) :
    ∀ c ∈ normalizeText l, isSpaceNB c = true → c = ' ' := by
  intro c hc hsp
  rcases mem_normalizeText_cases hc with h1 | h1
  · exact h1
  · rw [hsp] at h1
    cases h1.2

theorem normalizeText_chain (l : List Char) : (normalizeText l).Chain' spR :=
  List.Chain'.infix ((collapseNLAux_chain _ 0
    ((collapseRunsAux_chain (tabsToSpaces (removeCR l))).1 false)))
    (jsTrim_within _)

theorem normalizeText_nlOk (l : List Char) : nlOk 0 (normalizeText l) = true :=
  nlOk_within (jsTrim_within _)
    (nlOk_collapseNLAux (collapseRuns isSpaceNB ' ' (tabsToSpaces (removeCR l))) 0)

theorem removeCR_eq_self {l : List Char} (h : '\r' ∉ l) : removeCR l = l := by
  refine List.filter_eq_self.mpr ?_
  intro c hc
  have : c ≠ '\r' := fun e => h (e ▸ hc)
  simp [this]

theorem tabsToSpaces_eq_self {l : List Char} (h : '\t' ∉ l) : tabsToSpaces l = l := by
  have h2 : ∀ c ∈ l, (if c = '\t' then ' ' else c) = c := by
    intro c hc
    rw [if_neg]
    intro e
    subst e
    exact h hc
  calc tabsToSpaces l = l.map id := List.map_congr_left h2
    _ = l := List.map_id l

/-- **C10.** `normalizeText` is idempotent: running the normalization chain
(strip `\r`, tabs to spaces, collapse space runs, collapse 3+ newlines,
trim) a second time changes nothing, because its output contains no `\r`
or tab, no adjacent space-class characters or single no-break space, no
run of 3 or more newlines, and is already trimmed. -/
theorem normalizeText_idempotent (l : List Char) :
    normalizeText (normalizeText l) = normalizeText l := by
  have hrc : removeCR (normalizeText l) = normalizeText l :=
    removeCR_eq_self (normalizeText_no_cr l)
  have hts : tabsToSpaces (normalizeText l) = normalizeText l :=
    tabsToSpaces_eq_self (normalizeText_no_tab l)
  have hcr : collapseRuns isSpaceNB ' ' (normalizeText l) = normalizeText l :=
    collapseRunsAux_id _ (normalizeText_space_inv l) (normalizeText_chain l)
  have hnl : collapseNL (normalizeText l) = normalizeText l :=
    collapseNLAux_id _ 0 (normalizeText_nlOk l)
  have htr : jsTrim (normalizeText l) = normalizeText l :=
    jsTrim_idem (collapseNL (collapseRuns isSpaceNB ' ' (tabsToSpaces (removeCR l))))
  show jsTrim (collapseNL (collapseRuns isSpaceNB ' '
    (tabsToSpaces (removeCR (normalizeText l))))) = normalizeText l
  rw [hrc, hts, hcr, hnl, htr]

end P2S
